import Mathlib

/-!
# Verification of the Formetrix document-to-text pipeline

A shallow embedding, over `String` and `List Char`, of the extraction and
formatting core of the Formetrix application:

* `selectStrategy` embeds the file-type dispatch of `handleFileUpload`
  (src/App.tsx);
* `OCRService.processImage` and `OCRService.processPDF` embed the image and
  PDF extraction paths (src/services/OCRService.ts), with the browser and
  OCR capabilities (worker creation, page rendering, recognition results)
  supplied as explicit environment data;
* `AIService.callProviderPlan` embeds the provider resolution of
  `AIService.callProvider` up to (but not including) the network call, and
  `AIService.localProcessing` embeds the local transform, including the
  JavaScript regular-expression semantics of its replacement rules
  (multiline `^`/`$` anchors, greedy matching with backtracking, the
  class `\s` matching line terminators);
* `OCRInitRace` embeds the interleaving semantics of two concurrent
  `OCRService.init` calls at their `await` suspension points.

Theorems named `C1_…` to `C10_…` settle the corresponding specification
claims.
-/

namespace Formetrix

/-! ## JavaScript character classes

`isTermC` is the set of ECMAScript line terminators (relevant to multiline
`^`/`$` and to `String.prototype.split` boundaries only through `\n`).
`isWsC` is the class matched by `\s` and trimmed by `String.prototype.trim`:
white space plus line terminators. -/

def isTermC (c : Char) : Bool :=
  c = '\n' || c = '\r' || c = '\u2028' || c = '\u2029'

def isSpaceSepC (c : Char) : Bool :=
  c = ' ' || c = '\t' || c = '\u000b' || c = '\u000c' || c = '\u00a0' ||
  c = '\u1680' || ('\u2000' ≤ c && c ≤ '\u200a') || c = '\u202f' ||
  c = '\u205f' || c = '\u3000' || c = '\ufeff'

def isWsC (c : Char) : Bool := isSpaceSepC c || isTermC c

/-- `String.prototype.trim`: strip `\s`-class characters from both ends. -/
def jsTrimL (l : List Char) : List Char :=
  ((l.dropWhile isWsC).reverse.dropWhile isWsC).reverse

def jsTrim (s : String) : String := ⟨jsTrimL s.data⟩

/-! ## File-type dispatch (`handleFileUpload`, src/App.tsx)

The dispatch reads the declared MIME type (`file.type`) and the lowercased
final extension and selects one of three processing strategies, or throws
`Unsupported file type: ${file.type || fileExtension}`. -/

inductive Strategy
  | pdf
  | image
  | plainRead
deriving DecidableEq, Repr

def imageExtensions : List String := ["jpg", "jpeg", "png", "tiff", "bmp", "gif"]

def selectStrategy (mimeType ext : String) : Except String Strategy :=
  if mimeType = "application/pdf" || ext = "pdf" then
    .ok .pdf
  else if "image/".data.isPrefixOf mimeType.data || imageExtensions.contains ext then
    .ok .image
  else if mimeType = "text/plain" || ext = "txt" then
    .ok .plainRead
  else
    .error ("Unsupported file type: " ++ (if mimeType = "" then ext else mimeType))

/-! ## OCR service (src/services/OCRService.ts)

The Tesseract worker and the browser canvas are modelled as an explicit
environment.  A thrown JavaScript `Error` is modelled as `Except.error`
carrying the message; interpolating an `Error` into a template string
(`` `${error}` ``) prefixes the message with `Error: `. -/

structure OCREnv where
  /-- Outcome of `Tesseract.createWorker`: `ok` gives a live worker. -/
  initResult : Except String Unit

structure PDFPage where
  /-- `textContent.items` of the page: the native text layer fragments. -/
  nativeItems : List String
  /-- Whether `canvas.getContext('2d')` returns a context. -/
  ctxOk : Bool
  /-- Outcome of the `page.render` promise at scale 2.0. -/
  renderResult : Except String Unit
  /-- Outcome of `worker.recognize` on the rasterized page image. -/
  ocrText : Except String String

/-- `OCRService.processImage`, given the recognition outcome for the file:
initializes the worker, recognizes, rejects on empty/whitespace-only text,
returns the trimmed text.  The `try`/`catch` inside `processImage` wraps
failures of the recognition block as `Image processing failed: ${error}`. -/
def processImage (env : OCREnv) (recognized : Except String String) :
    Except String String :=
  match env.initResult with
  | .error _ => .error "Failed to initialize OCR engine"
  | .ok () =>
    match recognized with
    | .error e => .error ("Image processing failed: Error: " ++ e)
    | .ok text =>
      if (jsTrim text).data.length = 0 then
        .error "Image processing failed: Error: No text could be extracted from this image"
      else
        .ok (jsTrim text)

/-- `textContent.items.map(item => item.str).join(' ')`. -/
def pageNativeText (p : PDFPage) : String :=
  String.intercalate " " p.nativeItems

/-- One iteration of the `processPDF` page loop: accept the native text
layer when its trimmed length exceeds 20, otherwise rasterize (when a
canvas context is available) and recognize; `ok none` is a page that
contributes nothing, `error` an uncaught exception. -/
def pageStep (env : OCREnv) (p : PDFPage) : Except String (Option String) :=
  if 20 < (jsTrim (pageNativeText p)).data.length then
    .ok (some (pageNativeText p))
  else if p.ctxOk then
    match p.renderResult with
    | .error e => .error e
    | .ok () =>
      match processImage env p.ocrText with
      | .error e => .error e
      | .ok text =>
        if 0 < (jsTrim text).data.length then .ok (some (jsTrim text))
        else .ok none
  else
    .ok none

/-- The page loop of `OCRService.processPDF`, from page index `i` (1-based)
out of `total` pages.  Returns the accepted page texts together with the
`hasTextContent` flag, or the first uncaught exception, and the list of
values delivered to `onProgress` (`(i / totalPages) * 100` after each page
that completes). -/
def processPDFPages (env : OCREnv) (total : ℚ) :
    ℚ → List PDFPage → Except String (List String × Bool) × List ℚ
  | _, [] => (.ok ([], false), [])
  | i, p :: rest =>
    match pageStep env p with
    | .error e => (.error e, [])
    | .ok res =>
      let next := processPDFPages env total (i + 1) rest
      let reports := i / total * 100 :: next.2
      match next.1 with
      | .error e => (.error e, reports)
      | .ok (texts, has) => (.ok (res.toList ++ texts, has || res.isSome), reports)

/-- `OCRService.processPDF`: runs the page loop and either joins the accepted
page texts with a blank line or throws; the outer `catch` wraps any failure
as `PDF processing failed: ${error}`. -/
def processPDF (env : OCREnv) (pages : List PDFPage) :
    Except String String × List ℚ :=
  let r := processPDFPages env (pages.length : ℚ) 1 pages
  match r.1 with
  | .error e => (.error ("PDF processing failed: Error: " ++ e), r.2)
  | .ok (texts, has) =>
    if has then (.ok (String.intercalate "\n\n" texts), r.2)
    else (.error "PDF processing failed: Error: No text content could be extracted from this PDF", r.2)

/-! ## Provider resolution (`AIService.callProvider`, src/services/AIService.ts)

`callProviderPlan` follows `callProvider` up to the first network call and
reports what the call would be; the local branch runs to completion since it
performs no I/O. -/

structure ProviderProfile where
  name : String
  endpoint : String
  defaultModel : String
  requiresKey : Bool

def Providers (id : String) : Option ProviderProfile :=
  if id = "groq" then
    some ⟨"Groq", "https://api.groq.com/openai/v1/chat/completions",
      "llama-3.3-70b-versatile", true⟩
  else if id = "deepseek" then
    some ⟨"DeepSeek", "https://router.huggingface.co/v1",
      "deepseek-ai/DeepSeek-V3.2-Exp:novita", true⟩
  else if id = "huggingface" then
    some ⟨"Hugging Face", "https://api-inference.huggingface.co/models/",
      "google/flan-t5-base", true⟩
  else if id = "openai" then
    some ⟨"OpenAI", "https://api.openai.com/v1/chat/completions",
      "gpt-3.5-turbo", true⟩
  else if id = "local" then
    some ⟨"Local (No API)", "", "", false⟩
  else
    none

structure Settings where
  provider : String
  apiKey : String
  model : String
  customUrl : String
  customHeader : String
  saveKey : Bool

/-! ## The local transform (`AIService.localProcessing`)

`localProcessing` chains five global regex replacements and a trim, then
optionally `convertToMarkdown` or `convertToHTML`.  Each replacement is
embedded as a left-to-right scanner implementing the ECMAScript matching
semantics of its pattern.

Step 4, `replace(/^\s+|\s+$/gm, '')`, deserves care: with the `m` flag `^`
matches at the start and after every line terminator, `$` at the end and
before every line terminator, and `\s` itself matches line terminators.
Working through the engine semantics (leftmost match, alternatives in
order, greedy `\s+` with backtracking for the `$` alternative), the effect
on each maximal whitespace run is:

* a run at the very start of the string is consumed by `^\s+` entirely;
* a run at the very end is consumed by `\s+$` (with `$` at end of input);
* an interior run with no line terminator has no `^`/`$` position and
  survives unchanged;
* an interior run containing a line terminator is reduced to its last
  terminator alone, or deleted entirely when the character before that
  last terminator is also a terminator (the leading part is consumed by
  `\s+$` against the last terminator position, the trailing part by
  `^\s+` right after it). -/

/-- Step 1: `replace(/\r\n/g, '\n')`, leftmost non-overlapping. -/
def st1 : List Char → List Char
  | [] => []
  | [c] => [c]
  | c :: d :: rest =>
    if c = '\r' && d = '\n' then '\n' :: st1 rest
    else c :: st1 (d :: rest)

/-- A completed run of `n` newlines, collapsed to two once it reaches
`bound` (`\n{3,}` for step 2, `\n{2,}` for the markdown rule). -/
def nlCollapse (bound n : Nat) : List Char :=
  if bound ≤ n then ['\n', '\n'] else List.replicate n '\n'

def st2go (bound : Nat) : Nat → List Char → List Char
  | n, [] => nlCollapse bound n
  | n, c :: rest =>
    if c = '\n' then st2go bound (n + 1) rest
    else nlCollapse bound n ++ c :: st2go bound 0 rest

/-- Step 2: `replace(/\n{3,}/g, '\n\n')`. -/
def st2 (l : List Char) : List Char := st2go 3 0 l

def isSpTab (c : Char) : Bool := c = ' ' || c = '\t'

def st3go : Bool → List Char → List Char
  | _, [] => []
  | inRun, c :: rest =>
    if isSpTab c then
      (if inRun then [] else [' ']) ++ st3go true rest
    else
      c :: st3go false rest

/-- Step 3: `replace(/[ \t]+/g, ' ')`: every maximal space/tab run becomes
one space. -/
def st3 (l : List Char) : List Char := st3go false l

/-- What survives of an interior maximal whitespace run under
`/^\s+|\s+$/gm`; the run is supplied reversed (most recent character
first), as collected by the scanner. -/
def midRunRev (rbuf : List Char) : List Char :=
  match rbuf.dropWhile (fun c => !isTermC c) with
  | [] => rbuf.reverse
  | [t] => [t]
  | t :: b :: _ => if isTermC b then [] else [t]

inductive St4S
  | out
  | run (del : Bool) (rbuf : List Char)

def st4go : St4S → List Char → List Char
  | .out, [] => []
  | .run _ _, [] => []
  | .out, c :: rest =>
    if isWsC c then st4go (.run false [c]) rest
    else c :: st4go .out rest
  | .run del rbuf, c :: rest =>
    if isWsC c then st4go (.run del (c :: rbuf)) rest
    else (if del then [] else midRunRev rbuf) ++ c :: st4go .out rest

/-- Step 4: `replace(/^\s+|\s+$/gm, '')` (see the section comment).
A leading whitespace run (`del := true`) is deleted outright. -/
def st4 : List Char → List Char
  | [] => []
  | c :: rest =>
    if isWsC c then st4go (.run true [c]) rest
    else c :: st4go .out rest

/-- The format-independent part of `localProcessing`: steps 1-4 then
`trim()`. -/
def normalizeL (l : List Char) : List Char :=
  jsTrimL (st4 (st3 (st2 (st1 l))))

/-! ### `convertToMarkdown`

Rule 1 is `replace(/^(#+)\s*(.*)$/gm, '# $2')`.  Since `.` excludes line
terminators, a maximal `.*` run always ends at a terminator or at the end
of input, where `$` holds; so the pattern matches at every `^` position
followed by `#`, with no backtracking: the match is the `#` run, then the
maximal `\s*` run (which may cross a line terminator), then the maximal
`.*` run.  Rules 3 (`/^\s*[-*]\s+/gm` to `'- '`) and 4 (`/\b(\d+)\.\s+/g`
to `'$1. '`) similarly admit no backtracking: shortening the greedy `\s*`
or `\d+` prefix can never make the following literal match. -/

inductive R1S
  | scan (caret : Bool)
  | hash
  | wsSkip
  | dotCopy

def r1go : R1S → List Char → List Char
  | _, [] => []
  | .scan caret, c :: rest =>
    if caret && c = '#' then '#' :: ' ' :: r1go .hash rest
    else c :: r1go (.scan (isTermC c)) rest
  | .hash, c :: rest =>
    if c = '#' then r1go .hash rest
    else if isWsC c then r1go .wsSkip rest
    else c :: r1go .dotCopy rest
  | .wsSkip, c :: rest =>
    if isWsC c then r1go .wsSkip rest
    else c :: r1go .dotCopy rest
  | .dotCopy, c :: rest =>
    if isTermC c then c :: r1go (.scan true) rest
    else c :: r1go .dotCopy rest

/-- Markdown rule 1: `replace(/^(#+)\s*(.*)$/gm, '# $2')`. -/
def mdR1 (l : List Char) : List Char := r1go (.scan true) l

/-- Markdown rule 2: `replace(/\n{2,}/g, '\n\n')`. -/
def mdR2 (l : List Char) : List Char := st2go 2 0 l

def isBulletC (c : Char) : Bool := c = '-' || c = '*'

inductive R3S
  | scan (caret : Bool)
  | collect (rbuf : List Char)
  | wsSkip (lastT : Bool)

def r3go : R3S → List Char → List Char
  | .scan _, [] => []
  | .collect rbuf, [] => rbuf.reverse
  | .wsSkip _, [] => []
  | .scan caret, c :: rest =>
    if caret && isWsC c then r3go (.collect [c]) rest
    else if caret && isBulletC c then
      match rest with
      | d :: rest2 =>
        if isWsC d then '-' :: ' ' :: r3go (.wsSkip (isTermC d)) rest2
        else c :: d :: r3go (.scan false) rest2
      | [] => [c]
    else c :: r3go (.scan (isTermC c)) rest
  | .collect rbuf, c :: rest =>
    if isWsC c then r3go (.collect (c :: rbuf)) rest
    else if isBulletC c then
      match rest with
      | d :: rest2 =>
        if isWsC d then '-' :: ' ' :: r3go (.wsSkip (isTermC d)) rest2
        else rbuf.reverse ++ c :: d :: r3go (.scan false) rest2
      | [] => rbuf.reverse ++ [c]
    else rbuf.reverse ++ c :: r3go (.scan (isTermC c)) rest
  | .wsSkip lastT, c :: rest =>
    if isWsC c then r3go (.wsSkip (isTermC c)) rest
    else if lastT && isBulletC c then
      match rest with
      | d :: rest2 =>
        if isWsC d then '-' :: ' ' :: r3go (.wsSkip (isTermC d)) rest2
        else c :: d :: r3go (.scan false) rest2
      | [] => [c]
    else c :: r3go (.scan (isTermC c)) rest

/-- Markdown rule 3: `replace(/^\s*[-*]\s+/gm, '- ')`.  A whitespace run at
a `^` position is buffered until the scanner sees whether a bullet and
whitespace follow; on failure the buffer is emitted unchanged (retries at
`^` positions inside the buffered run fail against the same character). -/
def mdR3 (l : List Char) : List Char := r3go (.scan true) l

def isDigitC (c : Char) : Bool := '0' ≤ c && c ≤ '9'

def isWordC (c : Char) : Bool :=
  isDigitC c || ('a' ≤ c && c ≤ 'z') || ('A' ≤ c && c ≤ 'Z') || c = '_'

inductive R4S
  | scan (prevWord : Bool)
  | digits (rbuf : List Char)
  | wsSkip

def r4go : R4S → List Char → List Char
  | .scan _, [] => []
  | .digits rbuf, [] => rbuf.reverse
  | .wsSkip, [] => []
  | .scan prevWord, c :: rest =>
    if !prevWord && isDigitC c then r4go (.digits [c]) rest
    else c :: r4go (.scan (isWordC c)) rest
  | .digits rbuf, c :: rest =>
    if isDigitC c then r4go (.digits (c :: rbuf)) rest
    else if c = '.' then
      match rest with
      | d :: rest2 =>
        if isWsC d then rbuf.reverse ++ '.' :: ' ' :: r4go .wsSkip rest2
        else if isDigitC d then rbuf.reverse ++ '.' :: r4go (.digits [d]) rest2
        else rbuf.reverse ++ '.' :: d :: r4go (.scan (isWordC d)) rest2
      | [] => rbuf.reverse ++ ['.']
    else rbuf.reverse ++ c :: r4go (.scan (isWordC c)) rest
  | .wsSkip, c :: rest =>
    if isWsC c then r4go .wsSkip rest
    else if isDigitC c then r4go (.digits [c]) rest
    else c :: r4go (.scan (isWordC c)) rest

/-- Markdown rule 4: `replace(/\b(\d+)\.\s+/g, '$1. ')`.  The `\b` is
tracked through the previous character's word-ness; after a match the
previous character is whitespace, so a following digit is again at a
boundary. -/
def mdR4 (l : List Char) : List Char := r4go (.scan false) l

def convertToMarkdownL (l : List Char) : List Char :=
  jsTrimL (mdR4 (mdR3 (mdR2 (mdR1 l))))

/-! ### `convertToHTML` -/

/-- `text.split('\n\n')`: leftmost non-overlapping separators. -/
def split2nl : List Char → List (List Char)
  | '\n' :: '\n' :: rest => [] :: split2nl rest
  | c :: rest =>
    match split2nl rest with
    | [] => [[c]]
    | b :: bs => (c :: b) :: bs
  | [] => [[]]

/-- `para.split('\n')`. -/
def splitNl : List Char → List (List Char)
  | '\n' :: rest => [] :: splitNl rest
  | c :: rest =>
    match splitNl rest with
    | [] => [[c]]
    | b :: bs => (c :: b) :: bs
  | [] => [[]]

/-- `/^\s*[-*]\s+/.test(para)` (no `m` flag: `^` is the start of the
string; greedy `\s*` admits no backtracking, as for rule 3). -/
def bulletTest (l : List Char) : Bool :=
  match l.dropWhile isWsC with
  | c :: d :: _ => isBulletC c && isWsC d
  | _ => false

/-- `item.replace(/^\s*[-*]\s+/, '')`: strip one leading bullet marker. -/
def bulletStrip (l : List Char) : List Char :=
  match l.dropWhile isWsC with
  | c :: d :: rest =>
    if isBulletC c && isWsC d then (d :: rest).dropWhile isWsC
    else l
  | _ => l

def renderItem (item : List Char) : List Char :=
  "  <li>".data ++ bulletStrip item ++ "</li>\n".data

def renderBlock (para : List Char) : List Char :=
  if jsTrimL para = [] then []
  else if bulletTest para then
    let items := (splitNl para).filter (fun line => !(jsTrimL line).isEmpty)
    "<ul>\n".data ++ (items.map renderItem).flatten ++ "</ul>\n".data
  else
    "<p>".data ++ para ++ "</p>\n".data

def convertToHTMLL (l : List Char) : List Char :=
  ((split2nl l).map renderBlock).flatten

/-- `AIService.localProcessing`: normalize, then convert according to the
requested output format. -/
def localProcessingL (text : List Char) (format : String) : List Char :=
  let processed := normalizeL text
  if format = "markdown" then convertToMarkdownL processed
  else if format = "html" then convertToHTMLL processed
  else processed

def localProcessing (text format : String) : String :=
  ⟨localProcessingL text.data format⟩

/-- What one invocation of `AIService.callProvider` does. -/
inductive ProviderCall
  | localResult (output : String)
  | httpRequest (family endpoint model : String)
deriving DecidableEq, Repr

/-- `AIService.callProvider` up to its first network call: resolve the
provider, check the credential, compute effective model and endpoint, and
either finish locally, fail, or reach an HTTP request. -/
def callProviderPlan (settings : Settings) (userText fmt : String) :
    Except String ProviderCall :=
  if settings.provider = "" || settings.provider = "local" then
    .ok (.localResult (localProcessing userText fmt))
  else
    match Providers settings.provider with
    | none => .error "Invalid provider selected"
    | some config =>
      if config.requiresKey && settings.apiKey = "" then
        .error ("API key required for " ++ config.name ++
          ". Please configure in AI Settings.")
      else
        let model := if settings.model = "" then config.defaultModel else settings.model
        let endpoint := if settings.customUrl = "" then config.endpoint else settings.customUrl
        if settings.provider = "deepseek" then
          .ok (.httpRequest "chat" (endpoint ++ "/chat/completions") model)
        else if settings.provider = "huggingface" then
          .ok (.httpRequest "inference" (endpoint ++ model) model)
        else
          .ok (.httpRequest "chat" endpoint model)

/-! ## Concurrent initialization (`OCRService.init`)

JavaScript is single-threaded; two overlapping `init()` calls interleave
only at `await` points.  Each caller runs `if (this.worker) return;`
and the synchronous prefix of `this.worker = await createWorker(...)`
atomically (this starts one underlying initialization), then suspends;
on resumption it assigns `this.worker`.  `started` counts how many
underlying `Tesseract.createWorker` initializations were begun. -/

inductive InitPC
  | start
  | awaitingCreate
  | done
deriving DecidableEq, Repr

structure InitRace where
  worker : Option Nat
  started : Nat
  pcA : InitPC
  pcB : InitPC
deriving DecidableEq, Repr

def initStep (w : Option Nat) (started : Nat) :
    InitPC → Option Nat × Nat × InitPC
  | .start =>
    if w.isSome then (w, started, .done)
    else (w, started + 1, .awaitingCreate)
  | .awaitingCreate => (some 0, started, .done)
  | .done => (w, started, .done)

def raceStep (s : InitRace) (pickA : Bool) : InitRace :=
  if pickA then
    let r := initStep s.worker s.started s.pcA
    { worker := r.1, started := r.2.1, pcA := r.2.2, pcB := s.pcB }
  else
    let r := initStep s.worker s.started s.pcB
    { worker := r.1, started := r.2.1, pcA := s.pcA, pcB := r.2.2 }

/-- Run a schedule: `true` steps caller A, `false` steps caller B. -/
def raceRun : InitRace → List Bool → InitRace
  | s, [] => s
  | s, b :: rest => raceRun (raceStep s b) rest

/-- Both callers about to enter `init()` with no worker yet. -/
def raceInit : InitRace := ⟨none, 0, .start, .start⟩

/-! ## Basic lemmas about trimming -/

theorem head_dropWhile_false {α : Type} (p : α → Bool) :
    ∀ (l : List α) (c : α), (l.dropWhile p).head? = some c → p c = false := by
  intro l
  induction l with
  | nil => intro c h; simp [List.dropWhile] at h
  | cons a rest ih =>
    intro c h
    rw [List.dropWhile_cons] at h
    by_cases ha : p a = true
    · exact ih c (by simpa [ha] using h)
    · simp only [ha, if_neg, Bool.false_ne_true, if_false] at h
      cases h
      exact Bool.eq_false_iff.mpr ha

theorem mem_dropWhile_of_mem_not {α : Type} (p : α → Bool) (l : List α) (c : α)
    (hc : c ∈ l) (hp : p c = false) : c ∈ l.dropWhile p := by
  have hsplit := List.takeWhile_append_dropWhile p l
  rw [← hsplit] at hc
  rcases List.mem_append.mp hc with h | h
  · have := List.mem_takeWhile_imp h
    rw [hp] at this
    cases this
  · exact h

theorem jsTrimL_head (l : List Char) (c : Char)
    (h : (jsTrimL l).head? = some c) : isWsC c = false := by
  unfold jsTrimL at h
  set l1 := l.dropWhile isWsC with hl1
  set l2 := l1.reverse.dropWhile isWsC with hl2
  have hsplit : l1.reverse.takeWhile isWsC ++ l2 = l1.reverse :=
    List.takeWhile_append_dropWhile isWsC l1.reverse
  have hrec : l1 = l2.reverse ++ (l1.reverse.takeWhile isWsC).reverse := by
    have h' := congrArg List.reverse hsplit
    simpa [List.reverse_append] using h'.symm
  have hne : l2.reverse ≠ [] := by
    intro h0
    rw [h0] at h
    simp at h
  have hhead : l2.reverse.head? = l1.head? := by
    conv_rhs => rw [hrec]
    cases h2 : l2.reverse with
    | nil => exact absurd h2 hne
    | cons x xs => simp [h2]
  rw [hhead] at h
  exact head_dropWhile_false isWsC l c h

theorem jsTrimL_getLast (l : List Char) (c : Char)
    (h : (jsTrimL l).getLast? = some c) : isWsC c = false := by
  unfold jsTrimL at h
  rw [List.getLast?_reverse] at h
  exact head_dropWhile_false isWsC _ c h

theorem jsTrimL_ne_nil (l : List Char) (c : Char) (hc : c ∈ l)
    (hp : isWsC c = false) : jsTrimL l ≠ [] := by
  unfold jsTrimL
  intro hnil
  have h1 : c ∈ l.dropWhile isWsC := mem_dropWhile_of_mem_not _ _ _ hc hp
  have h2 : c ∈ (l.dropWhile isWsC).reverse := List.mem_reverse.mpr h1
  have h3 : c ∈ (l.dropWhile isWsC).reverse.dropWhile isWsC :=
    mem_dropWhile_of_mem_not _ _ _ h2 hp
  rw [List.reverse_eq_nil_iff] at hnil
  rw [hnil] at h3
  cases h3

/-! ## C1: file-type dispatch -/

/-- C1: strategy selection is a total function of the declared MIME type
and the extension, choosing, in priority order, the PDF strategy
(MIME `application/pdf` or extension `pdf`), else the Image strategy
(MIME starting with `image/` or a known image extension), else the
plain-read strategy (MIME `text/plain` or extension `txt`), and otherwise
failing with the unsupported-type error carrying the offending MIME type
(or, when that is empty, the extension). -/
theorem C1_dispatch_priority (mimeType ext : String) :
    ((mimeType = "application/pdf" ∨ ext = "pdf") →
      selectStrategy mimeType ext = .ok .pdf) ∧
    (¬(mimeType = "application/pdf" ∨ ext = "pdf") →
      ("image/".data <+: mimeType.data ∨ ext ∈ imageExtensions) →
      selectStrategy mimeType ext = .ok .image) ∧
    (¬(mimeType = "application/pdf" ∨ ext = "pdf") →
      ¬("image/".data <+: mimeType.data ∨ ext ∈ imageExtensions) →
      (mimeType = "text/plain" ∨ ext = "txt") →
      selectStrategy mimeType ext = .ok .plainRead) ∧
    (¬(mimeType = "application/pdf" ∨ ext = "pdf") →
      ¬("image/".data <+: mimeType.data ∨ ext ∈ imageExtensions) →
      ¬(mimeType = "text/plain" ∨ ext = "txt") →
      selectStrategy mimeType ext =
        .error ("Unsupported file type: " ++ (if mimeType = "" then ext else mimeType))) := by
  have hbPdf : (mimeType = "application/pdf" || ext = "pdf") = true ↔
      (mimeType = "application/pdf" ∨ ext = "pdf") := by simp
  have hbImg : ("image/".data.isPrefixOf mimeType.data || imageExtensions.contains ext) = true ↔
      ("image/".data <+: mimeType.data ∨ ext ∈ imageExtensions) := by
    simp [List.isPrefixOf_iff_prefix, List.contains, List.elem_iff]
  have hbTxt : (mimeType = "text/plain" || ext = "txt") = true ↔
      (mimeType = "text/plain" ∨ ext = "txt") := by simp
  refine ⟨?_, ?_, ?_, ?_⟩
  · intro h
    unfold selectStrategy
    rw [if_pos (hbPdf.mpr h)]
  · intro h1 h2
    unfold selectStrategy
    rw [if_neg, if_pos (hbImg.mpr h2)]
    intro hb
    exact h1 (hbPdf.mp hb)
  · intro h1 h2 h3
    unfold selectStrategy
    rw [if_neg, if_neg, if_pos (hbTxt.mpr h3)]
    · intro hb
      exact h2 (hbImg.mp hb)
    · intro hb
      exact h1 (hbPdf.mp hb)
  · intro h1 h2 h3
    unfold selectStrategy
    rw [if_neg, if_neg, if_neg]
    · intro hb
      exact h3 (hbTxt.mp hb)
    · intro hb
      exact h2 (hbImg.mp hb)
    · intro hb
      exact h1 (hbPdf.mp hb)

theorem C1_dispatch_priority_witness :
    selectStrategy "application/pdf" "pdf" = .ok .pdf ∧
    selectStrategy "image/png" "png" = .ok .image ∧
    selectStrategy "text/plain" "txt" = .ok .plainRead ∧
    selectStrategy "application/zip" "zip" =
      .error "Unsupported file type: application/zip" :=
  ⟨(C1_dispatch_priority "application/pdf" "pdf").1 (Or.inl rfl),
   (C1_dispatch_priority "image/png" "png").2.1 (by decide) (Or.inl (by decide)),
   (C1_dispatch_priority "text/plain" "txt").2.2.1 (by decide) (by decide) (Or.inl rfl),
   (C1_dispatch_priority "application/zip" "zip").2.2.2 (by decide) (by decide) (by decide)⟩

/-! ## C2, C3, C4: per-page failures in the PDF path -/

/-- C2 (failing input): a two-page PDF whose first page has no native text
and whose rasterization rejects, while the second page has a native text
layer well above the 20-character threshold.  The whole extraction fails
with the wrapped rasterization error: the second page's text is lost, so a
per-page failure does abort the whole document. -/
theorem C2_page_failure_aborts_document :
    (processPDF ⟨.ok ()⟩
      [⟨[], true, .error "Rendering failed", .ok ""⟩,
       ⟨["This native text layer is long enough to accept."], true, .ok (), .ok ""⟩]).1 =
      .error "PDF processing failed: Error: Rendering failed" := rfl

/-- C3 (failing input): a two-page PDF in which both pages' native text is
empty (at most 20 characters), so both enter the recognition fallback; the
first page's recognition yields `hello` but the second yields empty text,
which makes `processImage` throw and aborts the document instead of
contributing an empty page result, so the extracted text is not the join
of the non-empty fallback results. -/
theorem C3_empty_fallback_aborts_document :
    (processPDF ⟨.ok ()⟩
      [⟨[], true, .ok (), .ok "hello"⟩,
       ⟨[], true, .ok (), .ok ""⟩]).1 =
      .error "PDF processing failed: Error: Image processing failed: Error: No text could be extracted from this image" := rfl

/-- C4 (failing input): a one-page PDF with no native text whose
recognition fallback yields empty text.  No page yields any text, yet the
extraction fails with the wrapped image-processing error thrown by the
first empty page, not with the document-level no-text-content error. -/
theorem C4_no_text_misclassified :
    (processPDF ⟨.ok ()⟩ [⟨[], true, .ok (), .ok ""⟩]).1 =
      .error "PDF processing failed: Error: Image processing failed: Error: No text could be extracted from this image" := rfl

/-! ## C7: missing credential -/

/-- C7: for every configuration naming one of the known non-local
backends (all of which require a key) with an empty `apiKey`, provider
resolution fails with the missing-credential error before reaching any
HTTP request. -/
theorem C7_missing_credential (settings : Settings) (userText fmt : String)
    (hprov : settings.provider = "groq" ∨ settings.provider = "deepseek" ∨
      settings.provider = "huggingface" ∨ settings.provider = "openai")
    (hkey : settings.apiKey = "") :
    ∃ providerName, callProviderPlan settings userText fmt =
      .error ("API key required for " ++ providerName ++
        ". Please configure in AI Settings.") := by
  obtain ⟨p, k, m, u, hd, sv⟩ := settings
  simp only at hprov hkey
  subst hkey
  rcases hprov with h | h | h | h <;> subst h <;> exact ⟨_, rfl⟩

theorem C7_missing_credential_witness :
    ∃ providerName,
      callProviderPlan ⟨"groq", "", "", "", "", false⟩ "some text" "text" =
        .error ("API key required for " ++ providerName ++
          ". Please configure in AI Settings.") :=
  C7_missing_credential ⟨"groq", "", "", "", "", false⟩ "some text" "text"
    (Or.inl rfl) rfl

/-! ## C8: the local html example -/

/-- C8 (failing input): on the exact input from the claim, the local
transform's per-line trim `replace(/^\s+|\s+$/gm, '')` deletes the blank
line separating the two blocks (`\s` matches line terminators), fusing
`- b` with `Second para`; `convertToHTML` then sees a single
bullet-initial block and renders one list with `bSecond para` as the
second item, instead of a list block followed by a paragraph block. -/
theorem C8_local_html_output :
    callProviderPlan ⟨"local", "", "", "", "", false⟩ "- a\n- b\n\nSecond para" "html" =
      .ok (.localResult "<ul>\n  <li>a</li>\n  <li>bSecond para</li>\n</ul>\n") := rfl

/-! ## C9: concurrent initialization -/

/-- C9 (counterexample): the schedule in which both callers run their
check-then-create step before either resumes makes both see a null worker
and start an underlying initialization each: two initializations are
started, not at most one. -/
theorem C9_concurrent_duplicate_init :
    (raceRun raceInit [true, false, true, false]).started = 2 := by
  decide

theorem raceRun_started_of_worker_some (l : List Bool) :
    ∀ s : InitRace, s.worker.isSome = true →
      (raceRun s l).started = s.started ∧ (raceRun s l).worker.isSome = true := by
  induction l with
  | nil => intro s hs; exact ⟨rfl, hs⟩
  | cons b rest ih =>
    intro s hs
    have hstep : (raceStep s b).started = s.started ∧
        (raceStep s b).worker.isSome = true := by
      cases b <;> cases hA : s.pcA <;> cases hB : s.pcB <;>
        simp [raceStep, initStep, hA, hB, hs]
    have := ih (raceStep s b) hstep.2
    rw [raceRun]
    exact ⟨this.1.trans hstep.1, this.2⟩

/-- C9 (amended): there is no in-flight initialization gate, only the
`this.worker` field; so a caller that requests initialization after a
previous initialization has completed (and assigned the worker) starts no
new initialization, while callers that overlap an in-progress
initialization can each start one.  Here caller A completes first; under
any continuation schedule the count of started initializations stays 1. -/
theorem C9_completed_init_shared (l : List Bool) :
    (raceRun raceInit ([true, true] ++ l)).started = 1 := by
  have h2 : raceRun raceInit [true, true] =
      ⟨some 0, 1, .done, .start⟩ := by decide
  have happ : raceRun raceInit ([true, true] ++ l) =
      raceRun (raceRun raceInit [true, true]) l := by
    clear h2
    generalize raceInit = s
    induction ([true, true] : List Bool) generalizing s with
    | nil => rfl
    | cons b rest ih => rw [List.cons_append, raceRun, raceRun, ih]
  rw [happ, h2]
  exact (raceRun_started_of_worker_some l ⟨some 0, 1, .done, .start⟩ rfl).1

/-! ## C10: trimmed image text -/

/-- C10: when the worker initializes and recognition yields text containing
at least one non-whitespace character, `processImage` returns exactly the
trimmed recognition text, and that returned string neither begins nor ends
with whitespace. -/
theorem C10_image_text_trimmed (env : OCREnv) (text : String)
    (henv : env.initResult = .ok ())
    (h : ∃ c ∈ text.data, isWsC c = false) :
    processImage env (.ok text) = .ok (jsTrim text) ∧
    (∀ c, (jsTrim text).data.head? = some c → isWsC c = false) ∧
    (∀ c, (jsTrim text).data.getLast? = some c → isWsC c = false) := by
  obtain ⟨c, hc, hp⟩ := h
  have hne : jsTrimL text.data ≠ [] := jsTrimL_ne_nil text.data c hc hp
  refine ⟨?_, ?_, ?_⟩
  · simp only [processImage, henv]
    rw [if_neg]
    simpa [jsTrim, List.length_eq_zero] using hne
  · intro d hd
    exact jsTrimL_head text.data d hd
  · intro d hd
    exact jsTrimL_getLast text.data d hd

/-! ## C5: progress reporting -/

theorem processPDF_reports (env : OCREnv) (pages : List PDFPage) :
    (processPDF env pages).2 =
      (processPDFPages env (pages.length : ℚ) 1 pages).2 := by
  cases hr : (processPDFPages env (pages.length : ℚ) 1 pages).1 with
  | error e => simp [processPDF, hr]
  | ok v =>
    obtain ⟨texts, has⟩ := v
    by_cases hh : has = true <;> simp [processPDF, hr, hh]

theorem processPDFPages_reports_eq (env : OCREnv) (total : ℚ) :
    ∀ (pages : List PDFPage) (i : ℚ), ∃ m, m ≤ pages.length ∧
      (processPDFPages env total i pages).2 =
        (List.range m).map (fun t : ℕ => (i + (t : ℚ)) / total * 100) := by
  intro pages
  induction pages with
  | nil => exact fun i => ⟨0, by simp, by simp [processPDFPages]⟩
  | cons p rest ih =>
    intro i
    cases hstep : pageStep env p with
    | error e =>
      refine ⟨0, by simp, ?_⟩
      simp [processPDFPages, hstep]
    | ok res =>
      obtain ⟨m, hm, hrep⟩ := ih (i + 1)
      refine ⟨m + 1, by simpa using hm, ?_⟩
      have hrw : (processPDFPages env total i (p :: rest)).2 =
          i / total * 100 :: (processPDFPages env total (i + 1) rest).2 := by
        cases hnext : (processPDFPages env total (i + 1) rest).1 with
        | error e => simp [processPDFPages, hstep, hnext]
        | ok v =>
          obtain ⟨texts, has⟩ := v
          simp [processPDFPages, hstep, hnext]
      rw [hrw, hrep, List.range_succ_eq_map, List.map_cons, List.map_map]
      congr 1
      · norm_num
      · apply List.map_congr_left
        intro t _
        simp only [Function.comp_apply]
        push_cast
        ring

/-- C5: for every PDF, the progress values delivered to the callback are
non-decreasing, and the `k`-th delivered value (reported immediately after
the `k`-th page completes, 0-based here) is `(k+1) / numPages * 100`. -/
theorem C5_pdf_progress (env : OCREnv) (pages : List PDFPage) :
    List.Chain' (· ≤ ·) (processPDF env pages).2 ∧
    ∀ k (hk : k < (processPDF env pages).2.length),
      (processPDF env pages).2.get ⟨k, hk⟩ =
        ((k : ℚ) + 1) / (pages.length : ℚ) * 100 := by
  obtain ⟨m, hm, hrep⟩ :=
    processPDFPages_reports_eq env (pages.length : ℚ) pages 1
  have h2 : (processPDF env pages).2 =
      (List.range m).map
        (fun t : ℕ => ((1 : ℚ) + (t : ℚ)) / (pages.length : ℚ) * 100) :=
    (processPDF_reports env pages).trans hrep
  constructor
  · rw [h2, List.chain'_iff_get]
    intro k hk
    simp only [List.get_eq_getElem, List.getElem_map, List.getElem_range]
    have hle : ((1 : ℚ) + (k : ℚ)) ≤ (1 : ℚ) + ((k + 1 : ℕ) : ℚ) := by
      push_cast
      linarith
    calc ((1 : ℚ) + (k : ℚ)) / (pages.length : ℚ) * 100
        = ((1 : ℚ) + (k : ℚ)) * (100 / (pages.length : ℚ)) := by ring
      _ ≤ ((1 : ℚ) + ((k + 1 : ℕ) : ℚ)) * (100 / (pages.length : ℚ)) := by
          apply mul_le_mul_of_nonneg_right hle
          positivity
      _ = ((1 : ℚ) + ((k + 1 : ℕ) : ℚ)) / (pages.length : ℚ) * 100 := by ring
  · intro k hk
    rw [List.get_of_eq h2]
    simp only [List.get_eq_getElem, List.getElem_map, List.getElem_range]
    ring_nf

def pageWithText : PDFPage :=
  ⟨["This native text layer is long enough to accept."], true, .ok (), .ok ""⟩

theorem C5_pdf_progress_witness :
    List.Chain' (· ≤ ·) (processPDF ⟨.ok ()⟩ [pageWithText]).2 ∧
    (processPDF ⟨.ok ()⟩ [pageWithText]).2.get ⟨0, by decide⟩ =
      ((0 : ℚ) + 1) / ((List.length [pageWithText] : ℕ) : ℚ) * 100 :=
  ⟨(C5_pdf_progress ⟨.ok ()⟩ [pageWithText]).1,
   (C5_pdf_progress ⟨.ok ()⟩ [pageWithText]).2 0 (by decide)⟩

/-! ## C6: idempotence of the local transform (counterexample part) -/

/-- C6 (counterexample): with output format `html` the local transform is
not idempotent: one application wraps `x` in a paragraph block, a second
application wraps the result again. -/
theorem C6_html_not_idempotent :
    localProcessing "x" "html" = "<p>x</p>\n" ∧
    localProcessing (localProcessing "x" "html") "html" = "<p><p>x</p></p>\n" ∧
    decide (localProcessing (localProcessing "x" "html") "html" =
      localProcessing "x" "html") = false :=
  ⟨rfl, rfl, rfl⟩

/-! ## C6: idempotence of the local transform (amended part)

The local transform is idempotent for every output format other than
`html`.  The proof characterizes the image of the normalization pipeline:
a string is *normal* when no tab occurs, no whitespace character is
adjacent to a line terminator on either side, no two spaces are adjacent,
and the string neither starts nor ends with whitespace.  Each of the five
normalization steps fixes normal strings, and the pipeline always produces
a normal string. -/

def goodPairB (a b : Char) : Bool :=
  !(isWsC a && isTermC b) && !(isTermC a && isWsC b) && !(a = ' ' && b = ' ')

def noDblB (a b : Char) : Bool := !(a = ' ' && b = ' ')

def GoodChain (l : List Char) : Prop :=
  List.Chain' (fun a b => goodPairB a b = true) l

def NoDblChain (l : List Char) : Prop :=
  List.Chain' (fun a b => noDblB a b = true) l

def HeadNonWs (l : List Char) : Prop :=
  ∀ c, l.head? = some c → isWsC c = false

def LastNonWs (l : List Char) : Prop :=
  ∀ c, l.getLast? = some c → isWsC c = false

structure NormalL (l : List Char) : Prop where
  chain : GoodChain l
  headOk : HeadNonWs l
  lastOk : LastNonWs l
  noTab : '\t' ∉ l

theorem ws_of_term {c : Char} (h : isTermC c = true) : isWsC c = true := by
  simp [isWsC, h]

theorem term_false_of_not_ws {c : Char} (h : isWsC c = false) : isTermC c = false := by
  cases ht : isTermC c
  · rfl
  · rw [ws_of_term ht] at h
    cases h

theorem ne_space_of_not_ws {a : Char} (ha : isWsC a = false) : a ≠ ' ' := by
  intro h
  subst h
  exact absurd ha (by decide)

theorem goodPairB_of_left {a b : Char} (ha : isWsC a = false) :
    goodPairB a b = true := by
  simp [goodPairB, ha, term_false_of_not_ws ha, ne_space_of_not_ws ha]

theorem goodPairB_of_right {a b : Char} (hb : isWsC b = false) :
    goodPairB a b = true := by
  simp [goodPairB, hb, term_false_of_not_ws hb, ne_space_of_not_ws hb]

theorem goodPairB_ws_ws {a b : Char} (h : goodPairB a b = true)
    (ha : isWsC a = true) (hb : isWsC b = true) :
    isTermC a = false ∧ isTermC b = false ∧ ¬(a = ' ' ∧ b = ' ') := by
  simp only [goodPairB, Bool.and_eq_true, Bool.not_eq_true'] at h
  obtain ⟨⟨h1, h2⟩, h3⟩ := h
  refine ⟨?_, ?_, ?_⟩
  · rw [Bool.and_eq_false_iff] at h2
    rcases h2 with h2 | h2
    · exact h2
    · rw [hb] at h2
      exact absurd h2 (by simp)
  · rw [Bool.and_eq_false_iff] at h1
    rcases h1 with h1 | h1
    · rw [ha] at h1
      exact absurd h1 (by simp)
    · exact h1
  · rintro ⟨rfl, rfl⟩
    simp at h3

/-! ### Steps 1-3 fix normal strings -/

theorem st1_fix : ∀ l : List Char, GoodChain l → st1 l = l
  | [] => fun _ => rfl
  | [c] => fun _ => rfl
  | c :: d :: rest => fun h => by
    have hp : goodPairB c d = true := (List.chain'_cons.mp h).1
    have hb : (c = '\r' && d = '\n') = false := by
      rw [Bool.and_eq_false_iff]
      by_cases hc : c = '\r'
      · subst hc
        right
        simp only [decide_eq_false_iff_not]
        intro hd
        subst hd
        exact absurd hp (by decide)
      · left
        simp [hc]
    show st1 (c :: d :: rest) = c :: d :: rest
    rw [st1, hb]
    simp only [Bool.false_eq_true, if_false]
    rw [st1_fix (d :: rest) (List.chain'_cons.mp h).2]

theorem st2go_fix (bound : Nat) (hb : 2 ≤ bound) :
    ∀ l : List Char, GoodChain l →
      st2go bound 0 l = l ∧
      ((∀ c, l.head? = some c → c ≠ '\n') → st2go bound 1 l = '\n' :: l) := by
  have h0 : nlCollapse bound 0 = [] := by
    have : ¬ bound ≤ 0 := by omega
    simp [nlCollapse, this]
  have h1 : nlCollapse bound 1 = ['\n'] := by
    have : ¬ bound ≤ 1 := by omega
    simp [nlCollapse, this]
  intro l
  induction l with
  | nil =>
    intro _
    refine ⟨h0, fun _ => h1⟩
  | cons c rest ih =>
    intro h
    have hrest : GoodChain rest := List.Chain'.tail h
    constructor
    · by_cases hc : c = '\n'
      · subst hc
        rw [st2go, if_pos rfl]
        refine (ih hrest).2 ?_
        intro d hd hdn
        subst hdn
        cases rest with
        | nil => simp at hd
        | cons e rest2 =>
          have hde : e = '\n' := by simpa using hd
          have hp := (List.chain'_cons.mp h).1
          rw [hde] at hp
          exact absurd hp (by decide)
      · rw [st2go, if_neg hc, h0, (ih hrest).1]
        rfl
    · intro hhead
      have hc : c ≠ '\n' := hhead c rfl
      rw [st2go, if_neg hc, h1, (ih hrest).1]
      rfl

theorem st2_fix (l : List Char) (h : GoodChain l) : st2 l = l :=
  (st2go_fix 3 (by omega) l h).1

theorem mdR2_fix (l : List Char) (h : GoodChain l) : mdR2 l = l :=
  (st2go_fix 2 (by omega) l h).1

theorem st3go_fix :
    ∀ l : List Char, '\t' ∉ l → GoodChain l →
      st3go false l = l ∧
      ((∀ c, l.head? = some c → isSpTab c = false) → st3go true l = l) := by
  intro l
  induction l with
  | nil => exact fun _ _ => ⟨rfl, fun _ => rfl⟩
  | cons c rest ih =>
    intro htab h
    have htabr : '\t' ∉ rest := fun hmem => htab (List.mem_cons_of_mem _ hmem)
    have hrest : GoodChain rest := List.Chain'.tail h
    have hctab : c ≠ '\t' := fun hc => htab (hc ▸ List.mem_cons_self _ _)
    constructor
    · by_cases hsp : isSpTab c = true
      · have hc : c = ' ' := by
          rcases (by simpa [isSpTab] using hsp : c = ' ' ∨ c = '\t') with h' | h'
          · exact h'
          · exact absurd h' hctab
        subst hc
        rw [st3go, if_pos (show isSpTab ' ' = true from rfl)]
        have hnext : ∀ d, rest.head? = some d → isSpTab d = false := by
          intro d hd
          cases rest with
          | nil => simp at hd
          | cons e rest2 =>
            have hde : e = d := by simpa using hd
            subst hde
            have hp := (List.chain'_cons.mp h).1
            have hdt : e ≠ '\t' := fun hx =>
              htabr (hx ▸ List.mem_cons_self _ _)
            have hds : e ≠ ' ' := by
              intro hx
              subst hx
              exact absurd hp (by decide)
            simp [isSpTab, hdt, hds]
        rw [(ih htabr hrest).2 hnext]
        rfl
      · rw [st3go, if_neg hsp, (ih htabr hrest).1]
    · intro hhead
      have hspf : isSpTab c = false := hhead c rfl
      have hsp : ¬ isSpTab c = true := by simp [hspf]
      rw [st3go, if_neg hsp, (ih htabr hrest).1]

theorem st3_fix (l : List Char) (htab : '\t' ∉ l) (h : GoodChain l) :
    st3 l = l :=
  (st3go_fix l htab h).1

/-! ### Step 4 fixes normal strings -/

theorem lastNonWs_tail {c : Char} {rest : List Char}
    (h : LastNonWs (c :: rest)) : LastNonWs rest := by
  intro d hd
  apply h
  cases rest with
  | nil => simp at hd
  | cons e r2 => rw [List.getLast?_cons_cons]; exact hd

theorem lastNonWs_append_cons {pre : List Char} {c : Char} {rest : List Char}
    (h : LastNonWs (pre ++ c :: rest)) : LastNonWs (c :: rest) := by
  intro d hd
  apply h
  rw [List.getLast?_append_of_ne_nil]
  · exact hd
  · simp

theorem midRunRev_id (rbuf : List Char)
    (hinv : (∀ c ∈ rbuf, isTermC c = false) ∨ ∃ w, rbuf = [w]) :
    midRunRev rbuf = rbuf.reverse := by
  rcases hinv with hfree | ⟨w, rfl⟩
  · have hdw : rbuf.dropWhile (fun c => !isTermC c) = [] := by
      rw [List.dropWhile_eq_nil_iff]
      intro x hx
      simp [hfree x hx]
    simp [midRunRev, hdw]
  · cases ht : isTermC w <;> simp [midRunRev, List.dropWhile, ht]

def St4Inv : St4S → List Char → Prop
  | .out, l => GoodChain l ∧ LastNonWs l
  | .run del rbuf, l => del = false ∧ rbuf ≠ [] ∧
      (∀ c ∈ rbuf, isWsC c = true) ∧
      ((∀ c ∈ rbuf, isTermC c = false) ∨ ∃ w, rbuf = [w]) ∧
      GoodChain (rbuf.reverse ++ l) ∧ LastNonWs (rbuf.reverse ++ l)

theorem st4go_fix : ∀ (l : List Char) (s : St4S), St4Inv s l →
    st4go s l = (match s with | .out => l | .run _ rbuf => rbuf.reverse ++ l) := by
  intro l
  induction l with
  | nil =>
    intro s hs
    cases s with
    | out => rfl
    | run del rbuf =>
      obtain ⟨_, hne, hws, _, _, hlast⟩ := hs
      exfalso
      obtain ⟨p, rbuf', rfl⟩ : ∃ p r, rbuf = p :: r := by
        cases rbuf with
        | nil => exact absurd rfl hne
        | cons p r => exact ⟨p, r, rfl⟩
      have hlp : ((p :: rbuf').reverse ++ ([] : List Char)).getLast? = some p := by
        simp
      have := hlast p hlp
      rw [hws p (List.mem_cons_self _ _)] at this
      cases this
  | cons c rest ih =>
    intro s hs
    cases s with
    | out =>
      obtain ⟨hch, hlast⟩ := hs
      by_cases hcw : isWsC c = true
      · rw [st4go, if_pos hcw]
        have hrun : St4Inv (.run false [c]) rest := by
          refine ⟨rfl, by simp, by simp [hcw], Or.inr ⟨c, rfl⟩, ?_, ?_⟩
          · simpa using hch
          · simpa using hlast
        rw [ih (.run false [c]) hrun]
        simp
      · rw [st4go, if_neg hcw]
        rw [ih .out ⟨List.Chain'.tail hch, lastNonWs_tail hlast⟩]
    | run del rbuf =>
      obtain ⟨hdel, hne, hws, hinv, hch, hlast⟩ := hs
      subst hdel
      obtain ⟨p, rbuf', rfl⟩ : ∃ p r, rbuf = p :: r := by
        cases rbuf with
        | nil => exact absurd rfl hne
        | cons p r => exact ⟨p, r, rfl⟩
      by_cases hcw : isWsC c = true
      · rw [st4go, if_pos hcw]
        have hpc : goodPairB p c = true := by
          have hsplit := (List.chain'_append.mp hch).2.2
          exact hsplit p (by simp) c rfl
        have hterm := goodPairB_ws_ws hpc (hws p (List.mem_cons_self _ _)) hcw
        have hinv' : (∀ x ∈ c :: p :: rbuf', isTermC x = false) ∨
            ∃ w, c :: p :: rbuf' = [w] := by
          left
          intro x hx
          rcases List.mem_cons.mp hx with rfl | hx2
          · exact hterm.2.1
          rcases List.mem_cons.mp hx2 with rfl | hx3
          · exact hterm.1
          · rcases hinv with hfree | ⟨w, hw⟩
            · exact hfree x (List.mem_cons_of_mem _ hx3)
            · obtain ⟨-, hnil⟩ := List.cons.inj hw
              rw [hnil] at hx3
              cases hx3
        have hassoc : (c :: p :: rbuf').reverse ++ rest =
            (p :: rbuf').reverse ++ c :: rest := by
          simp
        have hrun : St4Inv (.run false (c :: p :: rbuf')) rest := by
          refine ⟨rfl, by simp, ?_, hinv', ?_, ?_⟩
          · intro x hx
            rcases List.mem_cons.mp hx with rfl | hx2
            · exact hcw
            · exact hws x hx2
          · rw [hassoc]
            exact hch
          · rw [hassoc]
            exact hlast
        rw [ih (.run false (c :: p :: rbuf')) hrun]
        exact hassoc
      · rw [st4go, if_neg hcw]
        have hchain_cr : GoodChain (c :: rest) := (List.chain'_append.mp hch).2.1
        have hlast_cr : LastNonWs (c :: rest) := lastNonWs_append_cons hlast
        rw [ih .out ⟨List.Chain'.tail hchain_cr, lastNonWs_tail hlast_cr⟩]
        rw [if_neg Bool.false_ne_true]
        rw [midRunRev_id _ hinv]

theorem st4_fix (l : List Char) (h : NormalL l) : st4 l = l := by
  cases l with
  | nil => rfl
  | cons c rest =>
    have hcw : isWsC c = false := h.headOk c rfl
    rw [st4, if_neg (by simp [hcw])]
    rw [st4go_fix rest .out ⟨List.Chain'.tail h.chain, lastNonWs_tail h.lastOk⟩]

theorem jsTrimL_fix (l : List Char) (hh : HeadNonWs l) (hl : LastNonWs l) :
    jsTrimL l = l := by
  unfold jsTrimL
  have h1 : l.dropWhile isWsC = l := by
    cases l with
    | nil => rfl
    | cons c rest =>
      rw [List.dropWhile_cons, if_neg]
      simp [hh c rfl]
  rw [h1]
  have h2 : l.reverse.dropWhile isWsC = l.reverse := by
    cases hr : l.reverse with
    | nil => rfl
    | cons c rest =>
      rw [List.dropWhile_cons, if_neg]
      have hc : l.getLast? = some c := by
        rw [← List.head?_reverse, hr]
        rfl
      simp [hl c hc]
  rw [h2, List.reverse_reverse]

/-- Normal strings are fixed by the whole normalization pipeline. -/
theorem normalizeL_fixed (l : List Char) (h : NormalL l) : normalizeL l = l := by
  unfold normalizeL
  rw [st1_fix l h.chain, st2_fix l h.chain, st3_fix l h.noTab h.chain,
    st4_fix l h, jsTrimL_fix l h.headOk h.lastOk]

/-! ### The pipeline always produces a normal string

Step 3 leaves no tab and no two adjacent spaces; step 4 then yields a
normal string: it deletes leading and trailing whitespace runs, keeps
interior terminator-free runs verbatim, and reduces each other interior run
to at most a single terminator flanked by non-whitespace characters. -/

theorem st3go_out : ∀ l : List Char,
    ('\t' ∉ st3go false l ∧ NoDblChain (st3go false l)) ∧
    ('\t' ∉ st3go true l ∧ NoDblChain (st3go true l) ∧
      (st3go true l).head? ≠ some ' ') := by
  intro l
  induction l with
  | nil =>
    refine ⟨⟨by simp [st3go], List.chain'_nil⟩,
      ⟨by simp [st3go], List.chain'_nil, by simp [st3go]⟩⟩
  | cons c rest ih =>
    by_cases hsp : isSpTab c = true
    · have hout : st3go false (c :: rest) = ' ' :: st3go true rest := by
        rw [st3go, if_pos hsp]
        rfl
      have htout : st3go true (c :: rest) = st3go true rest := by
        rw [st3go, if_pos hsp]
        rfl
      constructor
      · constructor
        · rw [hout]
          intro hmem
          rcases List.mem_cons.mp hmem with h' | h'
          · cases h'
          · exact ih.2.1 h'
        · rw [hout, NoDblChain, List.chain'_cons']
          refine ⟨?_, ih.2.2.1⟩
          intro y hy
          have hyne : y ≠ ' ' := by
            intro hys
            subst hys
            exact ih.2.2.2 hy
          simp [noDblB, hyne]
      · rw [htout]
        exact ih.2
    · have hspf : isSpTab c = false := by
        cases hv : isSpTab c
        · rfl
        · exact absurd hv hsp
      have hcs : c ≠ ' ' := by
        intro h'
        subst h'
        cases hspf
      have hct : c ≠ '\t' := by
        intro h'
        subst h'
        cases hspf
      have hout : ∀ b, st3go b (c :: rest) = c :: st3go false rest := by
        intro b
        rw [st3go, if_neg hsp]
      have hcommon : '\t' ∉ c :: st3go false rest ∧
          NoDblChain (c :: st3go false rest) := by
        constructor
        · intro hmem
          rcases List.mem_cons.mp hmem with h' | h'
          · exact hct h'.symm
          · exact ih.1.1 h'
        · rw [NoDblChain, List.chain'_cons']
          refine ⟨?_, ih.1.2⟩
          intro y _
          simp [noDblB, hcs]
      refine ⟨⟨?_, ?_⟩, ?_, ?_, ?_⟩
      · rw [hout false]
        exact hcommon.1
      · rw [hout false]
        exact hcommon.2
      · rw [hout true]
        exact hcommon.1
      · rw [hout true]
        exact hcommon.2
      · rw [hout true]
        simp [hcs]

theorem goodChain_of_noDbl : ∀ r : List Char, (∀ c ∈ r, isWsC c = true) →
    (∀ c ∈ r, isTermC c = false) → NoDblChain r → GoodChain r
  | [] => fun _ _ _ => List.chain'_nil
  | [a] => fun _ _ _ => List.chain'_singleton a
  | a :: b :: r => fun hws hnt hnd => by
    rw [GoodChain, List.chain'_cons]
    constructor
    · have h3 := (List.chain'_cons.mp hnd).1
      simp only [goodPairB, hnt a (by simp), hnt b (by simp [List.mem_cons]),
        Bool.and_false, Bool.false_and, Bool.not_false, Bool.true_and]
      simpa [noDblB] using h3
    · exact goodChain_of_noDbl (b :: r)
        (fun c hc => hws c (List.mem_cons_of_mem _ hc))
        (fun c hc => hnt c (List.mem_cons_of_mem _ hc))
        (List.chain'_cons.mp hnd).2

theorem midRunRev_mem (rbuf : List Char) : ∀ x ∈ midRunRev rbuf, x ∈ rbuf := by
  intro x hx
  unfold midRunRev at hx
  cases hdw : rbuf.dropWhile (fun c => !isTermC c) with
  | nil =>
    rw [hdw] at hx
    exact List.mem_reverse.mp hx
  | cons t rest2 =>
    have htmem : t ∈ rbuf := by
      apply (List.dropWhile_sublist (fun c => !isTermC c)).subset
      rw [hdw]
      exact List.mem_cons_self _ _
    cases rest2 with
    | nil =>
      rw [hdw] at hx
      simp at hx
      subst hx
      exact htmem
    | cons b rest3 =>
      rw [hdw] at hx
      by_cases hb : isTermC b = true
      · simp [hb] at hx
      · simp [hb] at hx
        subst hx
        exact htmem

theorem midRunRev_allWs (rbuf : List Char) (hws : ∀ c ∈ rbuf, isWsC c = true) :
    ∀ x ∈ midRunRev rbuf, isWsC x = true :=
  fun x hx => hws x (midRunRev_mem rbuf x hx)

theorem midRunRev_chain (rbuf : List Char) (hws : ∀ c ∈ rbuf, isWsC c = true)
    (hnd : NoDblChain rbuf.reverse) : GoodChain (midRunRev rbuf) := by
  unfold midRunRev
  cases hdw : rbuf.dropWhile (fun c => !isTermC c) with
  | nil =>
    have hnt : ∀ c ∈ rbuf, isTermC c = false := by
      intro c hc
      have := List.dropWhile_eq_nil_iff.mp hdw c hc
      simpa using this
    exact goodChain_of_noDbl rbuf.reverse
      (fun c hc => hws c (List.mem_reverse.mp hc))
      (fun c hc => hnt c (List.mem_reverse.mp hc))
      hnd
  | cons t rest2 =>
    cases rest2 with
    | nil => exact List.chain'_singleton t
    | cons b rest3 =>
      by_cases hb : isTermC b = true
      · simp only [hb, if_true]
        exact List.chain'_nil
      · have : isTermC b = false := by
          cases hv : isTermC b
          · rfl
          · exact absurd hv hb
        simp only [this, Bool.false_eq_true, if_false]
        exact List.chain'_singleton t

theorem lastNonWs_cons {c : Char} {out : List Char} (hc : isWsC c = false)
    (h : LastNonWs out) : LastNonWs (c :: out) := by
  intro d hd
  cases out with
  | nil =>
    have hdc : c = d := by simpa using hd
    rw [← hdc]
    exact hc
  | cons e r =>
    rw [List.getLast?_cons_cons] at hd
    exact h d hd

theorem lastNonWs_pre_append {pre : List Char} {c : Char} {out : List Char}
    (h : LastNonWs (c :: out)) : LastNonWs (pre ++ c :: out) := by
  intro d hd
  rw [List.getLast?_append_of_ne_nil] at hd
  · exact h d hd
  · simp

def St4OutInv : St4S → List Char → Prop
  | .out, l => '\t' ∉ l ∧ NoDblChain l
  | .run _ rbuf, l => '\t' ∉ l ∧ '\t' ∉ rbuf ∧
      (∀ c ∈ rbuf, isWsC c = true) ∧ NoDblChain (rbuf.reverse ++ l)

theorem st4go_out : ∀ (l : List Char) (s : St4S), St4OutInv s l →
    GoodChain (st4go s l) ∧ LastNonWs (st4go s l) ∧ '\t' ∉ st4go s l ∧
    (∀ rbuf, s = .run true rbuf → HeadNonWs (st4go s l)) := by
  intro l
  induction l with
  | nil =>
    intro s _
    have hout : st4go s [] = [] := by
      cases s <;> rfl
    rw [hout]
    exact ⟨List.chain'_nil, fun d hd => by simp at hd, by simp,
      fun _ _ d hd => by simp at hd⟩
  | cons c rest ih =>
    intro s hs
    cases s with
    | out =>
      obtain ⟨htab, hnd⟩ := hs
      have htabc : c ≠ '\t' := fun h' => htab (h' ▸ List.mem_cons_self _ _)
      have htabr : '\t' ∉ rest := fun h' => htab (List.mem_cons_of_mem _ h')
      by_cases hcw : isWsC c = true
      · rw [st4go, if_pos hcw]
        have := ih (.run false [c])
          ⟨htabr, by simpa using fun h' => htabc h'.symm, by simp [hcw],
           by simpa using hnd⟩
        exact ⟨this.1, this.2.1, this.2.2.1, fun _ h' => by cases h'⟩
      · rw [st4go, if_neg hcw]
        have hcwf : isWsC c = false := by
          cases hv : isWsC c
          · rfl
          · exact absurd hv hcw
        have := ih .out ⟨htabr, List.Chain'.tail hnd⟩
        refine ⟨?_, lastNonWs_cons hcwf this.2.1, ?_, fun _ h' => by cases h'⟩
        · rw [GoodChain, List.chain'_cons']
          exact ⟨fun y _ => goodPairB_of_left hcwf, this.1⟩
        · intro hmem
          rcases List.mem_cons.mp hmem with h' | h'
          · exact htabc h'.symm
          · exact this.2.2.1 h'
    | run del rbuf =>
      obtain ⟨htab, htabb, hws, hnd⟩ := hs
      have htabc : c ≠ '\t' := fun h' => htab (h' ▸ List.mem_cons_self _ _)
      have htabr : '\t' ∉ rest := fun h' => htab (List.mem_cons_of_mem _ h')
      by_cases hcw : isWsC c = true
      · rw [st4go, if_pos hcw]
        have hassoc : (c :: rbuf).reverse ++ rest = rbuf.reverse ++ c :: rest := by
          simp
        have := ih (.run del (c :: rbuf))
          ⟨htabr,
           by
             intro hmem
             rcases List.mem_cons.mp hmem with h' | h'
             · exact htabc h'.symm
             · exact htabb h',
           by
             intro x hx
             rcases List.mem_cons.mp hx with rfl | hx2
             · exact hcw
             · exact hws x hx2,
           by rw [hassoc]; exact hnd⟩
        refine ⟨this.1, this.2.1, this.2.2.1, ?_⟩
        intro rbuf0 heq
        injection heq with h1 h2
        subst h1
        subst h2
        exact this.2.2.2 (c :: rbuf) rfl
      · rw [st4go, if_neg hcw]
        have hcwf : isWsC c = false := by
          cases hv : isWsC c
          · rfl
          · exact absurd hv hcw
        have hndr : NoDblChain rest := by
          have := (List.chain'_append.mp hnd).2.1
          exact List.Chain'.tail this
        have hrec := ih .out ⟨htabr, hndr⟩
        have hndb : NoDblChain rbuf.reverse := by
          have hpre : rbuf.reverse <+: rbuf.reverse ++ c :: rest :=
            ⟨c :: rest, rfl⟩
          exact List.Chain'.prefix hnd hpre
        have hchTail : GoodChain (c :: st4go St4S.out rest) := by
          rw [GoodChain, List.chain'_cons']
          exact ⟨fun y _ => goodPairB_of_left hcwf, hrec.1⟩
        have hlastTail : LastNonWs (c :: st4go St4S.out rest) :=
          lastNonWs_cons hcwf hrec.2.1
        cases del with
        | true =>
          rw [if_pos rfl]
          refine ⟨by simpa using hchTail, by simpa using hlastTail, ?_, ?_⟩
          · intro hmem
            simp only [List.nil_append] at hmem
            rcases List.mem_cons.mp hmem with h' | h'
            · exact htabc h'.symm
            · exact hrec.2.2.1 h'
          · intro rbuf0 _ d hd
            simp only [List.nil_append] at hd
            have hdc : c = d := by simpa using hd
            rw [← hdc]
            exact hcwf
        | false =>
          rw [if_neg Bool.false_ne_true]
          refine ⟨?_, lastNonWs_pre_append hlastTail, ?_, fun _ h' => by cases h'⟩
          · rw [GoodChain, List.chain'_append]
            refine ⟨midRunRev_chain rbuf hws hndb, hchTail, ?_⟩
            intro x _ y hy
            have hyc : c = y := by simpa using hy
            rw [← hyc]
            exact goodPairB_of_right hcwf
          · intro hmem
            rcases List.mem_append.mp hmem with h' | h'
            · exact htabb (midRunRev_mem rbuf _ h')
            · rcases List.mem_cons.mp h' with h'' | h''
              · exact htabc h''.symm
              · exact hrec.2.2.1 h''

/-- The normalization pipeline always yields a normal string. -/
theorem normalizeL_normal (l : List Char) : NormalL (normalizeL l) := by
  unfold normalizeL
  have h3 : '\t' ∉ st3 (st2 (st1 l)) ∧ NoDblChain (st3 (st2 (st1 l))) :=
    (st3go_out (st2 (st1 l))).1
  have h4 :
      GoodChain (st4 (st3 (st2 (st1 l)))) ∧
      LastNonWs (st4 (st3 (st2 (st1 l)))) ∧
      '\t' ∉ st4 (st3 (st2 (st1 l))) ∧
      HeadNonWs (st4 (st3 (st2 (st1 l)))) := by
    cases hcase : st3 (st2 (st1 l)) with
    | nil =>
      rw [st4]
      exact ⟨List.chain'_nil, fun d hd => by simp at hd, by simp,
        fun d hd => by simp at hd⟩
    | cons c rest =>
      rw [hcase] at h3
      have htabc : c ≠ '\t' := fun h' => h3.1 (h' ▸ List.mem_cons_self _ _)
      have htabr : '\t' ∉ rest := fun h' => h3.1 (List.mem_cons_of_mem _ h')
      by_cases hcw : isWsC c = true
      · rw [st4, if_pos hcw]
        have := st4go_out rest (.run true [c])
          ⟨htabr, by simpa using fun h' => htabc h'.symm, by simp [hcw],
           by simpa using h3.2⟩
        exact ⟨this.1, this.2.1, this.2.2.1, this.2.2.2 [c] rfl⟩
      · rw [st4, if_neg hcw]
        have hcwf : isWsC c = false := by
          cases hv : isWsC c
          · rfl
          · exact absurd hv hcw
        have := st4go_out rest .out ⟨htabr, List.Chain'.tail h3.2⟩
        refine ⟨?_, lastNonWs_cons hcwf this.2.1, ?_, ?_⟩
        · rw [GoodChain, List.chain'_cons']
          exact ⟨fun y _ => goodPairB_of_left hcwf, this.1⟩
        · intro hmem
          rcases List.mem_cons.mp hmem with h' | h'
          · exact htabc h'.symm
          · exact this.2.2.1 h'
        · intro d hd
          have hdc : c = d := by simpa using hd
          rw [← hdc]
          exact hcwf
  rw [jsTrimL_fix _ h4.2.2.2 h4.2.1]
  exact ⟨h4.1, h4.2.2.2, h4.2.1, h4.2.2.1⟩

/-- The format-independent normalization is idempotent. -/
theorem normalizeL_idem (l : List Char) :
    normalizeL (normalizeL l) = normalizeL l :=
  normalizeL_fixed _ (normalizeL_normal l)

/-! ### The markdown conversion rules on normal strings

In a normal string the `^` positions of a multiline pattern are exactly
the start of the string and the positions right after a line terminator,
and no whitespace stands at a `^` position.  The three positional checkers
below describe the shapes the markdown rules leave behind: every heading
marker at a `^` position is a single `#` followed by `' '` and a
non-whitespace character (or ends the string), every bullet at a `^`
position followed by whitespace is `'-'` followed by exactly one space,
and every numbered-item match `\b(\d+)\.\s+` has exactly one space after
the dot. -/

def nextNonWs : List Char → Bool
  | [] => true
  | e :: _ => !isWsC e

/-- Allowed continuation after a `#` at a `^` position: end of string, or
one space followed by a non-whitespace character (or by the end). -/
def hashShape : List Char → Bool
  | [] => true
  | ' ' :: rest2 => nextNonWs rest2
  | _ => false

/-- Allowed continuation after a bullet at a `^` position: anything that
does not begin with whitespace, or exactly `'-'` (passed as `c`) followed
by one space and a non-whitespace character (or the end). -/
def bulletShape (c : Char) : List Char → Bool
  | [] => true
  | d :: rest2 => if isWsC d then c = '-' && d = ' ' && nextNonWs rest2 else true

/-- Allowed continuation after `\b(\d+)\.`: anything that does not begin
with whitespace, or one space followed by a non-whitespace character (or
the end). -/
def dotShape : List Char → Bool
  | [] => true
  | d :: rest2 => if isWsC d then d = ' ' && nextNonWs rest2 else true

def mdQ1 : Bool → List Char → Bool
  | _, [] => true
  | caret, c :: rest =>
    if caret && c = '#' then hashShape rest && mdQ1 false rest
    else mdQ1 (isTermC c) rest

def mdQ2 : Bool → List Char → Bool
  | _, [] => true
  | caret, c :: rest =>
    if caret && isBulletC c then bulletShape c rest && mdQ2 false rest
    else mdQ2 (isTermC c) rest

inductive Q3S
  | scan (prevWord : Bool)
  | dig

def mdQ3go : Q3S → List Char → Bool
  | _, [] => true
  | .scan pw, c :: rest =>
    if !pw && isDigitC c then mdQ3go .dig rest
    else mdQ3go (.scan (isWordC c)) rest
  | .dig, c :: rest =>
    if isDigitC c then mdQ3go .dig rest
    else if c = '.' then dotShape rest && mdQ3go (.scan false) rest
    else mdQ3go (.scan (isWordC c)) rest

/-- The output of the heading rule ends in a non-whitespace character or
in a trailing `"# "` produced by a heading match at the end of the input
(`caret` tells whether a match could start right here). -/
def TrailHash (caret : Bool) (out : List Char) : Prop :=
  LastNonWs out ∨
  ∃ w, out = w ++ ['#', ' '] ∧
    ((w = [] ∧ caret = true) ∨ ∃ t, w.getLast? = some t ∧ isTermC t = true)

theorem ws_false_of_goodPair_term_left {c y : Char}
    (h : goodPairB c y = true) (hc : isTermC c = true) : isWsC y = false := by
  simp only [goodPairB, Bool.and_eq_true, Bool.not_eq_true'] at h
  have h2 := h.1.2
  rw [hc] at h2
  simpa using h2

theorem headNonWs_after_term {c : Char} {rest : List Char}
    (hch : GoodChain (c :: rest)) (hc : isTermC c = true) : HeadNonWs rest := by
  intro y hy
  exact ws_false_of_goodPair_term_left ((List.chain'_cons'.mp hch).1 y hy) hc

theorem goodChain_cons_auto_left {c : Char} {out : List Char}
    (hc : isWsC c = false) (h : GoodChain out) : GoodChain (c :: out) := by
  rw [GoodChain, List.chain'_cons']
  exact ⟨fun y _ => goodPairB_of_left hc, h⟩

theorem goodChain_cons_head {c : Char} {rest out : List Char}
    (h : GoodChain out) (hhd : out.head? = rest.head?)
    (hch : GoodChain (c :: rest)) : GoodChain (c :: out) := by
  rw [GoodChain, List.chain'_cons']
  refine ⟨?_, h⟩
  intro y hy
  rw [hhd] at hy
  exact (List.chain'_cons'.mp hch).1 y hy

theorem goodChain_cons_headNonWs {c : Char} {out : List Char}
    (h : GoodChain out) (hhd : HeadNonWs out) : GoodChain (c :: out) := by
  rw [GoodChain, List.chain'_cons']
  refine ⟨?_, h⟩
  intro y hy
  exact goodPairB_of_right (hhd y hy)

theorem mdQ1_cons_nomatch {caret : Bool} {c : Char} {rest : List Char}
    (h : ¬(caret = true ∧ c = '#')) :
    mdQ1 caret (c :: rest) = mdQ1 (isTermC c) rest := by
  rw [mdQ1, if_neg]
  intro hb
  simp only [Bool.and_eq_true, decide_eq_true_eq] at hb
  exact h hb

theorem mdQ1_cons_hash {rest : List Char} :
    mdQ1 true ('#' :: rest) = (hashShape rest && mdQ1 false rest) := by
  rw [mdQ1, if_pos (by simp)]

theorem trailHash_cons {b b' : Bool} {c : Char} {out : List Char}
    (h : TrailHash b' out) (hb' : b' = true → isTermC c = true)
    (hempty : out = [] → isWsC c = false) :
    TrailHash b (c :: out) := by
  rcases h with hl | ⟨w, hw, hcond⟩
  · left
    intro d hd
    cases heq : out with
    | nil =>
      subst heq
      have : c = d := by simpa using hd
      rw [← this]
      exact hempty rfl
    | cons e r =>
      subst heq
      rw [List.getLast?_cons_cons] at hd
      exact hl d hd
  · right
    refine ⟨c :: w, by rw [hw]; rfl, ?_⟩
    rcases hcond with ⟨hwnil, hb⟩ | ⟨t, ht, htt⟩
    · right
      refine ⟨c, ?_, hb' hb⟩
      rw [hwnil]
      rfl
    · right
      refine ⟨t, ?_, htt⟩
      cases hwc : w with
      | nil =>
        subst hwc
        simp at ht
      | cons x xs =>
        subst hwc
        rw [List.getLast?_cons_cons]
        exact ht


def R1OutSpec : R1S → List Char → List Char → Prop
  | .scan caret, l, out => GoodChain out ∧ '\t' ∉ out ∧ mdQ1 caret out = true ∧
      TrailHash caret out ∧ (caret = true → HeadNonWs out) ∧
      (caret = false → out.head? = l.head?) ∧ (l ≠ [] → out ≠ [])
  | .hash, _, out => GoodChain out ∧ '\t' ∉ out ∧ mdQ1 false out = true ∧
      TrailHash false out ∧ HeadNonWs out
  | .wsSkip, _, out => GoodChain out ∧ '\t' ∉ out ∧ mdQ1 false out = true ∧
      TrailHash false out ∧ HeadNonWs out
  | .dotCopy, l, out => GoodChain out ∧ '\t' ∉ out ∧ mdQ1 false out = true ∧
      TrailHash false out ∧ out.head? = l.head?

theorem r1go_out : ∀ (l : List Char) (s : R1S),
    GoodChain l → LastNonWs l → '\t' ∉ l →
    (s = .scan true → HeadNonWs l) →
    R1OutSpec s l (r1go s l) := by
  intro l
  induction l with
  | nil =>
    intro s _ _ _ _
    have hout : r1go s [] = [] := by cases s <;> rfl
    cases s with
    | scan caret =>
      rw [hout]
      exact ⟨List.chain'_nil, by simp, by cases caret <;> rfl,
        Or.inl (fun d hd => by simp at hd), fun _ d hd => by simp at hd,
        fun _ => by simp, fun h => absurd rfl h⟩
    | hash =>
      rw [hout]
      exact ⟨List.chain'_nil, by simp, rfl,
        Or.inl (fun d hd => by simp at hd), fun d hd => by simp at hd⟩
    | wsSkip =>
      rw [hout]
      exact ⟨List.chain'_nil, by simp, rfl,
        Or.inl (fun d hd => by simp at hd), fun d hd => by simp at hd⟩
    | dotCopy =>
      rw [hout]
      exact ⟨List.chain'_nil, by simp, rfl,
        Or.inl (fun d hd => by simp at hd), by simp⟩
  | cons c rest ih =>
    intro s hch hlast htab hhd
    have hch' : GoodChain rest := List.Chain'.tail hch
    have hlast' : LastNonWs rest := lastNonWs_tail hlast
    have htab' : '\t' ∉ rest := fun h' => htab (List.mem_cons_of_mem _ h')
    have htabc : c ≠ '\t' := fun h' => htab (h' ▸ List.mem_cons_self _ _)
    have hout_empty : ∀ d : Char, rest = [] → isWsC c = false ∨ isTermC c = true → True :=
      fun _ _ _ => trivial
    have hclast : rest = [] → isWsC c = false := by
      intro h'
      subst h'
      exact hlast c rfl
    cases s with
    | scan caret =>
      by_cases hm : caret = true ∧ c = '#'
      · obtain ⟨hcar, hcc⟩ := hm
        subst hcar
        subst hcc
        rw [r1go, if_pos (by simp)]
        have ihh := ih .hash hch' hlast' htab' (fun h => by cases h)
        obtain ⟨hhchain, hhtab, hhq1, hhtrail, hhhead⟩ := ihh
        refine ⟨?_, ?_, ?_, ?_, ?_, ?_, ?_⟩
        · exact goodChain_cons_auto_left (by decide)
            (goodChain_cons_headNonWs hhchain hhhead)
        · intro hmem
          rcases List.mem_cons.mp hmem with h' | h'
          · cases h'
          rcases List.mem_cons.mp h' with h' | h'
          · cases h'
          · exact hhtab h'
        · rw [mdQ1_cons_hash, Bool.and_eq_true]
          constructor
          · show hashShape (' ' :: r1go R1S.hash rest) = true
            rw [hashShape]
            cases hcase : r1go R1S.hash rest with
            | nil => rfl
            | cons d r2 =>
              have hd : isWsC d = false := hhhead d (by rw [hcase]; rfl)
              simp [nextNonWs, hd]
          · rw [mdQ1_cons_nomatch (by simp)]
            simpa using hhq1
        · rcases hhtrail with hl | ⟨w, hw, hcond⟩
          · cases hcase : r1go R1S.hash rest with
            | nil =>
              right
              exact ⟨[], rfl, Or.inl ⟨rfl, rfl⟩⟩
            | cons e r2 =>
              left
              intro d hd
              apply hl
              rw [hcase]
              rw [List.getLast?_cons_cons, List.getLast?_cons_cons] at hd
              exact hd
          · right
            refine ⟨'#' :: ' ' :: w, by rw [hw]; simp, ?_⟩
            rcases hcond with ⟨_, hfalse⟩ | ⟨t, ht, htt⟩
            · cases hfalse
            · right
              refine ⟨t, ?_, htt⟩
              cases hwc : w with
              | nil =>
                subst hwc
                simp at ht
              | cons x xs =>
                subst hwc
                rw [List.getLast?_cons_cons, List.getLast?_cons_cons]
                exact ht
        · intro _ d hd
          have : '#' = d := by simpa using hd
          rw [← this]
          decide
        · intro h
          cases h
        · intro _
          simp
      · rw [r1go, if_neg (by
          intro hb
          simp only [Bool.and_eq_true, decide_eq_true_eq] at hb
          exact hm hb)]
        have hscanHyp : R1S.scan (isTermC c) = R1S.scan true → HeadNonWs rest := by
          intro h
          injection h with h1
          exact headNonWs_after_term hch h1
        have ihs := ih (.scan (isTermC c)) hch' hlast' htab' hscanHyp
        obtain ⟨hschain, hstab, hsq1, hstrail, hshead, hsheadeq, hsne⟩ := ihs
        refine ⟨?_, ?_, ?_, ?_, ?_, ?_, ?_⟩
        · by_cases htc : isTermC c = true
          · exact goodChain_cons_headNonWs hschain (hshead htc)
          · have htcf : isTermC c = false := by
              cases hv : isTermC c
              · rfl
              · exact absurd hv htc
            exact goodChain_cons_head hschain (hsheadeq htcf) hch
        · intro hmem
          rcases List.mem_cons.mp hmem with h' | h'
          · exact htabc h'.symm
          · exact hstab h'
        · rw [mdQ1_cons_nomatch hm]
          exact hsq1
        · refine trailHash_cons hstrail (fun h => h) ?_
          intro hnil
          apply hclast
          cases hr : rest with
          | nil => rfl
          | cons e r2 =>
            exact absurd hnil (hsne (by rw [hr]; simp))
        · intro hcar d hd
          have : c = d := by simpa using hd
          rw [← this]
          exact hhd (by rw [hcar]) c rfl
        · intro _
          rfl
        · intro _
          simp
    | hash =>
      rw [r1go]
      by_cases hcc : c = '#'
      · rw [if_pos hcc]
        exact ih .hash hch' hlast' htab' (fun h => by cases h)
      · rw [if_neg hcc]
        by_cases hcw : isWsC c = true
        · rw [if_pos hcw]
          exact ih .wsSkip hch' hlast' htab' (fun h => by cases h)
        · rw [if_neg hcw]
          have hcwf : isWsC c = false := by
            cases hv : isWsC c
            · rfl
            · exact absurd hv hcw
          have ihd := ih .dotCopy hch' hlast' htab' (fun h => by cases h)
          obtain ⟨hdchain, hdtab, hdq1, hdtrail, hdheadeq⟩ := ihd
          refine ⟨goodChain_cons_auto_left hcwf hdchain, ?_, ?_, ?_, ?_⟩
          · intro hmem
            rcases List.mem_cons.mp hmem with h' | h'
            · exact htabc h'.symm
            · exact hdtab h'
          · rw [mdQ1_cons_nomatch (fun h => by simp [hcc] at h)]
            rw [term_false_of_not_ws hcwf]
            exact hdq1
          · refine trailHash_cons hdtrail (fun h => by cases h) (fun _ => hcwf)
          · intro d hd
            have : c = d := by simpa using hd
            rw [← this]
            exact hcwf
    | wsSkip =>
      rw [r1go]
      by_cases hcw : isWsC c = true
      · rw [if_pos hcw]
        exact ih .wsSkip hch' hlast' htab' (fun h => by cases h)
      · rw [if_neg hcw]
        have hcwf : isWsC c = false := by
          cases hv : isWsC c
          · rfl
          · exact absurd hv hcw
        have ihd := ih .dotCopy hch' hlast' htab' (fun h => by cases h)
        obtain ⟨hdchain, hdtab, hdq1, hdtrail, hdheadeq⟩ := ihd
        refine ⟨goodChain_cons_auto_left hcwf hdchain, ?_, ?_, ?_, ?_⟩
        · intro hmem
          rcases List.mem_cons.mp hmem with h' | h'
          · exact htabc h'.symm
          · exact hdtab h'
        · rw [mdQ1_cons_nomatch (fun h => by cases h.1)]
          rw [term_false_of_not_ws hcwf]
          exact hdq1
        · exact trailHash_cons hdtrail (fun h => by cases h) (fun _ => hcwf)
        · intro d hd
          have : c = d := by simpa using hd
          rw [← this]
          exact hcwf
    | dotCopy =>
      rw [r1go]
      by_cases htc : isTermC c = true
      · rw [if_pos htc]
        have hscanHyp : R1S.scan true = R1S.scan true → HeadNonWs rest :=
          fun _ => headNonWs_after_term hch htc
        have ihs := ih (.scan true) hch' hlast' htab' hscanHyp
        obtain ⟨hschain, hstab, hsq1, hstrail, hshead, _, hsne⟩ := ihs
        refine ⟨goodChain_cons_headNonWs hschain (hshead rfl), ?_, ?_, ?_, ?_⟩
        · intro hmem
          rcases List.mem_cons.mp hmem with h' | h'
          · exact htabc h'.symm
          · exact hstab h'
        · rw [mdQ1_cons_nomatch (fun h => by cases h.1)]
          rw [htc]
          exact hsq1
        · refine trailHash_cons hstrail (fun _ => htc) ?_
          intro hnil
          exfalso
          cases hr : rest with
          | nil =>
            have := hclast hr
            rw [ws_of_term htc] at this
            cases this
          | cons e r2 =>
            exact absurd hnil (hsne (by rw [hr]; simp))
        · rfl
      · rw [if_neg htc]
        have htcf : isTermC c = false := by
          cases hv : isTermC c
          · rfl
          · exact absurd hv htc
        have ihd := ih .dotCopy hch' hlast' htab' (fun h => by cases h)
        obtain ⟨hdchain, hdtab, hdq1, hdtrail, hdheadeq⟩ := ihd
        refine ⟨goodChain_cons_head hdchain hdheadeq hch, ?_, ?_, ?_, ?_⟩
        · intro hmem
          rcases List.mem_cons.mp hmem with h' | h'
          · exact htabc h'.symm
          · exact hdtab h'
        · rw [mdQ1_cons_nomatch (fun h => by cases h.1)]
          rw [htcf]
          exact hdq1
        · refine trailHash_cons hdtrail (fun h => by cases h) ?_
          intro hnil
          apply hclast
          cases hr : rest with
          | nil => rfl
          | cons e r2 =>
            exfalso
            have := hdheadeq
            rw [hnil, hr] at this
            simp at this
        · rfl

theorem mdR1_out (l : List Char) (h : NormalL l) :
    GoodChain (mdR1 l) ∧ '\t' ∉ mdR1 l ∧ mdQ1 true (mdR1 l) = true ∧
    TrailHash true (mdR1 l) ∧ HeadNonWs (mdR1 l) :=
  let spec := r1go_out l (.scan true) h.chain h.lastOk h.noTab (fun _ => h.headOk)
  ⟨spec.1, spec.2.1, spec.2.2.1, spec.2.2.2.1, spec.2.2.2.2.1 rfl⟩

/-! ### The bullet rule -/

/-- The output of the bullet and numbered-item rules ends in a
non-whitespace character or in a single space preceded by one. -/
def TrailSp (out : List Char) : Prop :=
  LastNonWs out ∨ ∃ w x, out = w ++ [x, ' '] ∧ isWsC x = false

/-- Suffix-closed version of `TrailSp` for the inputs being scanned. -/
def TrailInSp (l : List Char) : Prop :=
  LastNonWs l ∨ (∃ w x, l = w ++ [x, ' '] ∧ isWsC x = false) ∨ l = [' ']

theorem trailInSp_tail {c : Char} {rest : List Char}
    (h : TrailInSp (c :: rest)) : TrailInSp rest := by
  rcases h with hl | ⟨w, x, hw, hx⟩ | hs
  · exact Or.inl (lastNonWs_tail hl)
  · cases w with
    | nil =>
      right
      right
      have : rest = [' '] := by simpa using congrArg List.tail hw
      exact this
    | cons a w' =>
      right
      left
      refine ⟨w', x, ?_, hx⟩
      simpa using congrArg List.tail hw
  · left
    have : rest = [] := by simpa using congrArg List.tail hs
    rw [this]
    intro d hd
    simp at hd

theorem trailInSp_single {c : Char} (h : TrailInSp [c]) :
    isWsC c = false ∨ c = ' ' := by
  rcases h with hl | ⟨w, x, hw, _⟩ | hs
  · exact Or.inl (hl c rfl)
  · exfalso
    have := congrArg List.length hw
    simp at this
  · right
    simpa using congrArg List.head? hs

theorem trailInSp_pair {c : Char} (h : TrailInSp [c, ' ']) :
    isWsC c = false := by
  rcases h with hl | ⟨w, x, hw, hx⟩ | hs
  · exact absurd (hl ' ' rfl) (by decide)
  · have hw' : w = [] ∧ c = x := by
      cases w with
      | nil => exact ⟨rfl, by simpa using congrArg List.head? hw⟩
      | cons a w' =>
        exfalso
        have := congrArg List.length hw
        simp at this
    rw [hw'.2]
    exact hx
  · exact absurd (congrArg List.length hs) (by simp)

theorem mdQ1_thread {caret : Bool} {c : Char} {rest : List Char}
    (h : mdQ1 caret (c :: rest) = true) : mdQ1 (isTermC c) rest = true := by
  by_cases hm : caret = true ∧ c = '#'
  · rw [hm.2] at h ⊢
    rw [hm.1] at h
    rw [mdQ1_cons_hash, Bool.and_eq_true] at h
    have : isTermC '#' = false := by decide
    rw [this]
    exact h.2
  · rw [mdQ1_cons_nomatch hm] at h
    exact h

theorem mdQ2_cons_nomatch {caret : Bool} {c : Char} {rest : List Char}
    (h : ¬(caret = true ∧ isBulletC c = true)) :
    mdQ2 caret (c :: rest) = mdQ2 (isTermC c) rest := by
  rw [mdQ2, if_neg]
  intro hb
  exact h (Bool.and_eq_true_iff.mp hb)

theorem mdQ2_cons_bullet {c : Char} {rest : List Char} (hc : isBulletC c = true) :
    mdQ2 true (c :: rest) = (bulletShape c rest && mdQ2 false rest) := by
  rw [mdQ2, if_pos (by simp [hc])]

theorem mdQ2_thread {caret : Bool} {c : Char} {rest : List Char}
    (h : mdQ2 caret (c :: rest) = true) : mdQ2 (isTermC c) rest = true := by
  by_cases hm : caret = true ∧ isBulletC c = true
  · rw [hm.1] at h
    rw [mdQ2_cons_bullet hm.2, Bool.and_eq_true] at h
    have : isTermC c = false := by
      rcases (by simpa [isBulletC] using hm.2 : c = '-' ∨ c = '*') with h' | h' <;>
        rw [h'] <;> decide
    rw [this]
    exact h.2
  · rw [mdQ2_cons_nomatch hm] at h
    exact h

theorem trailSp_match {wsout : List Char} (htr : TrailSp wsout) :
    TrailSp ('-' :: ' ' :: wsout) := by
  rcases htr with hl | ⟨w, x, hw, hx⟩
  · cases wsout with
    | nil => exact Or.inr ⟨[], '-', rfl, by decide⟩
    | cons e r =>
      left
      intro d hd
      apply hl
      rw [List.getLast?_cons_cons, List.getLast?_cons_cons] at hd
      exact hd
  · right
    exact ⟨'-' :: ' ' :: w, x, by rw [hw]; simp, hx⟩

theorem outTrail_cons {c : Char} {rest out' : List Char}
    (hin : TrailInSp (c :: rest))
    (h : TrailSp out' ∨ (out' = [' '] ∧ rest = [' ']))
    (hne : out' = [] → rest = []) :
    TrailSp (c :: out') ∨ (c :: out' = [' '] ∧ c :: rest = [' ']) := by
  rcases h with htr | ⟨ho, hr⟩
  · rcases htr with hl | ⟨w, x, hw, hx⟩
    · cases hcase : out' with
      | nil =>
        have hrest : rest = [] := hne hcase
        subst hrest
        rcases trailInSp_single hin with hcw | hcs
        · left
          left
          intro d hd
          have : c = d := by simpa [hcase] using hd
          rw [← this]
          exact hcw
        · right
          subst hcs
          exact ⟨rfl, rfl⟩
      | cons e r =>
        left
        left
        intro d hd
        apply hl
        rw [hcase]
        rw [List.getLast?_cons_cons] at hd
        exact hd
    · left
      right
      exact ⟨c :: w, x, by rw [hw]; simp, hx⟩
  · subst ho
    subst hr
    left
    right
    refine ⟨[], c, rfl, ?_⟩
    exact trailInSp_pair hin

def R3OutSpec : R3S → List Char → List Char → Prop
  | .scan caret, l, out => GoodChain out ∧ '\t' ∉ out ∧ mdQ1 caret out = true ∧
      mdQ2 caret out = true ∧
      (TrailSp out ∨ (out = [' '] ∧ l = [' '])) ∧
      (caret = true → HeadNonWs out) ∧
      (caret = false → out.head? = l.head?) ∧ (l ≠ [] → out ≠ [])
  | .collect _, _, _ => True
  | .wsSkip _, _, out => GoodChain out ∧ '\t' ∉ out ∧ mdQ1 false out = true ∧
      mdQ2 false out = true ∧ TrailSp out ∧ HeadNonWs out

def R3InInv : R3S → List Char → Prop
  | .scan caret, l => GoodChain l ∧ '\t' ∉ l ∧ TrailInSp l ∧ mdQ1 caret l = true ∧
      (caret = true → HeadNonWs l)
  | .collect _, _ => False
  | .wsSkip lastT, l => GoodChain l ∧ '\t' ∉ l ∧ TrailInSp l ∧ mdQ1 lastT l = true

theorem nextNonWs_of_headNonWs {r : List Char} (h : HeadNonWs r) :
    nextNonWs r = true := by
  cases r with
  | nil => rfl
  | cons e r' =>
    have := h e rfl
    simp [nextNonWs, this]

theorem hashShape_eq_true {rest : List Char} (h : hashShape rest = true) :
    rest = [] ∨ ∃ rest2, rest = ' ' :: rest2 ∧ nextNonWs rest2 = true := by
  rw [hashShape.eq_def] at h
  split at h
  · exact Or.inl rfl
  · exact Or.inr ⟨_, rfl, h⟩
  · cases h

theorem bulletShape_dash_space {r : List Char} (h : HeadNonWs r) :
    bulletShape '-' (' ' :: r) = true := by
  simp only [bulletShape]
  rw [if_pos (by decide : isWsC ' ' = true)]
  simp [nextNonWs_of_headNonWs h]

theorem bulletShape_of_nonWs {c d : Char} {r : List Char} (hd : isWsC d = false) :
    bulletShape c (d :: r) = true := by
  simp only [bulletShape]
  rw [if_neg (by simp [hd])]

theorem bullet_nonWs {c : Char} (h : isBulletC c = true) : isWsC c = false := by
  rcases (by simpa [isBulletC] using h : c = '-' ∨ c = '*') with h' | h' <;>
    rw [h'] <;> decide

theorem bullet_ne_hash {c : Char} (h : isBulletC c = true) : c ≠ '#' := by
  rcases (by simpa [isBulletC] using h : c = '-' ∨ c = '*') with h' | h' <;>
    rw [h'] <;> decide

theorem bullet_term_false {c : Char} (h : isBulletC c = true) : isTermC c = false :=
  term_false_of_not_ws (bullet_nonWs h)

theorem trailSp_cons_nonWs {c : Char} {out' : List Char} (hc : isWsC c = false)
    (h : TrailSp out' ∨ out' = [' ']) : TrailSp (c :: out') := by
  rcases h with htr | hd
  · rcases htr with hl | ⟨w, x, hw, hx⟩
    · cases hcase : out' with
      | nil =>
        left
        intro d hd'
        have : c = d := by simpa [hcase] using hd'
        rw [← this]
        exact hc
      | cons e r =>
        left
        intro d hd'
        apply hl
        rw [hcase]
        rw [List.getLast?_cons_cons] at hd'
        exact hd'
    · right
      exact ⟨c :: w, x, by rw [hw]; simp, hx⟩
  · subst hd
    right
    exact ⟨[], c, rfl, hc⟩

theorem r3go_scan_cons2 (caret : Bool) (c d : Char) (rest2 : List Char) :
    r3go (.scan caret) (c :: d :: rest2) =
      if caret && isWsC c then r3go (.collect [c]) (d :: rest2)
      else if caret && isBulletC c then
        (if isWsC d then '-' :: ' ' :: r3go (.wsSkip (isTermC d)) rest2
         else c :: d :: r3go (.scan false) rest2)
      else c :: r3go (.scan (isTermC c)) (d :: rest2) := rfl

theorem r3go_scan_one (caret : Bool) (c : Char) :
    r3go (.scan caret) [c] =
      if caret && isWsC c then r3go (.collect [c]) []
      else if caret && isBulletC c then [c]
      else c :: r3go (.scan (isTermC c)) [] := rfl

theorem r3go_ws_cons2 (lastT : Bool) (c d : Char) (rest2 : List Char) :
    r3go (.wsSkip lastT) (c :: d :: rest2) =
      if isWsC c then r3go (.wsSkip (isTermC c)) (d :: rest2)
      else if lastT && isBulletC c then
        (if isWsC d then '-' :: ' ' :: r3go (.wsSkip (isTermC d)) rest2
         else c :: d :: r3go (.scan false) rest2)
      else c :: r3go (.scan (isTermC c)) (d :: rest2) := rfl

theorem r3go_ws_one (lastT : Bool) (c : Char) :
    r3go (.wsSkip lastT) [c] =
      if isWsC c then r3go (.wsSkip (isTermC c)) []
      else if lastT && isBulletC c then [c]
      else c :: r3go (.scan (isTermC c)) [] := rfl

theorem r3go_scan_cons (caret : Bool) (c : Char) (rest : List Char) :
    r3go (.scan caret) (c :: rest) =
      if caret && isWsC c then r3go (.collect [c]) rest
      else if caret && isBulletC c then
        (match rest with
         | d :: rest2 =>
           if isWsC d then '-' :: ' ' :: r3go (.wsSkip (isTermC d)) rest2
           else c :: d :: r3go (.scan false) rest2
         | [] => [c])
      else c :: r3go (.scan (isTermC c)) rest := by
  cases rest with
  | nil => exact r3go_scan_one caret c
  | cons d rest2 => exact r3go_scan_cons2 caret c d rest2

theorem r3go_ws_cons (lastT : Bool) (c : Char) (rest : List Char) :
    r3go (.wsSkip lastT) (c :: rest) =
      if isWsC c then r3go (.wsSkip (isTermC c)) rest
      else if lastT && isBulletC c then
        (match rest with
         | d :: rest2 =>
           if isWsC d then '-' :: ' ' :: r3go (.wsSkip (isTermC d)) rest2
           else c :: d :: r3go (.scan false) rest2
         | [] => [c])
      else c :: r3go (.scan (isTermC c)) rest := by
  cases rest with
  | nil => exact r3go_ws_one lastT c
  | cons d rest2 => exact r3go_ws_cons2 lastT c d rest2

theorem r3go_scan_false_head (c : Char) (rest : List Char) :
    (r3go (.scan false) (c :: rest)).head? = some c := by
  cases rest with
  | nil =>
    rw [r3go_scan_one, if_neg (by simp), if_neg (by simp)]
    rfl
  | cons d rest2 =>
    rw [r3go_scan_cons2, if_neg (by simp), if_neg (by simp)]
    rfl

theorem hashShape_space_cons {X : List Char} {d : Char} (h : X.head? = some d)
    (hd : isWsC d = false) : hashShape (' ' :: X) = true := by
  cases X with
  | nil => cases h
  | cons e r =>
    have he : e = d := by simpa using h
    subst he
    simp [hashShape, nextNonWs, hd]

theorem r3go_out_nil (s : R3S) (hs : R3InInv s []) : R3OutSpec s [] (r3go s []) := by
  cases s with
  | scan caret =>
    have hout : r3go (.scan caret) [] = [] := rfl
    rw [hout]
    exact ⟨List.chain'_nil, by simp, by cases caret <;> rfl, by cases caret <;> rfl,
      Or.inl (Or.inl (fun d hd => by simp at hd)), fun _ d hd => by simp at hd,
      fun _ => by simp, fun h => absurd rfl h⟩
  | collect rbuf => trivial
  | wsSkip lastT =>
    have hout : r3go (.wsSkip lastT) [] = [] := rfl
    rw [hout]
    exact ⟨List.chain'_nil, by simp, rfl, rfl,
      Or.inl (fun d hd => by simp at hd), fun d hd => by simp at hd⟩

theorem r3go_out : ∀ (n : Nat) (l : List Char), l.length ≤ n → ∀ s : R3S,
    R3InInv s l → R3OutSpec s l (r3go s l) := by
  intro n
  induction n with
  | zero =>
    intro l hl s hs
    have hnil : l = [] := List.length_eq_zero.mp (Nat.le_zero.mp hl)
    subst hnil
    exact r3go_out_nil s hs
  | succ n ihn =>
    intro l hl s hs
    cases l with
    | nil => exact r3go_out_nil s hs
    | cons c rest =>
      have hrest : rest.length ≤ n := by
        simp only [List.length_cons] at hl
        omega
      cases s with
      | collect rbuf => exact hs.elim
      | scan caret =>
        obtain ⟨hch, htab, htin, hq1, hh⟩ := hs
        have hch' : GoodChain rest := List.Chain'.tail hch
        have htab' : '\t' ∉ rest := fun h' => htab (List.mem_cons_of_mem _ h')
        have htabc : c ≠ '\t' := fun h' => htab (h' ▸ List.mem_cons_self _ _)
        have htin' : TrailInSp rest := trailInSp_tail htin
        have hq1' : mdQ1 (isTermC c) rest = true := mdQ1_thread hq1
        have hcond1 : ¬((caret && isWsC c) = true) := by
          intro hb
          rw [Bool.and_eq_true] at hb
          have := hh hb.1 c rfl
          rw [hb.2] at this
          cases this
        by_cases hbm : caret = true ∧ isBulletC c = true
        · obtain ⟨hcar, hbul⟩ := hbm
          subst hcar
          cases rest with
          | nil =>
            rw [r3go_scan_one, if_neg hcond1, if_pos (by simp [hbul])]
            refine ⟨List.chain'_singleton _, ?_, ?_, ?_, ?_, ?_, ?_, ?_⟩
            · intro hmem
              exact htabc (List.mem_singleton.mp hmem).symm
            · rw [mdQ1_cons_nomatch (fun h => absurd h.2 (bullet_ne_hash hbul))]
              cases hit : isTermC c <;> rfl
            · rw [mdQ2_cons_bullet hbul, Bool.and_eq_true]
              exact ⟨rfl, rfl⟩
            · refine Or.inl (Or.inl (fun y hy => ?_))
              have : c = y := by simpa using hy
              rw [← this]
              exact bullet_nonWs hbul
            · intro _ y hy
              have : c = y := by simpa using hy
              rw [← this]
              exact bullet_nonWs hbul
            · intro h
              cases h
            · intro _
              simp
          | cons d rest2 =>
            have hrest2 : rest2.length ≤ n := by
              simp only [List.length_cons] at hl
              omega
            have hch'' : GoodChain rest2 := List.Chain'.tail hch'
            have htab'' : '\t' ∉ rest2 := fun h' => htab' (List.mem_cons_of_mem _ h')
            have htabd : d ≠ '\t' := fun h' => htab' (h' ▸ List.mem_cons_self _ _)
            have htin'' : TrailInSp rest2 := trailInSp_tail htin'
            have hq1'' : mdQ1 (isTermC d) rest2 = true := mdQ1_thread hq1'
            rw [r3go_scan_cons2, if_neg hcond1, if_pos (by simp [hbul])]
            by_cases hwd : isWsC d = true
            · rw [if_pos hwd]
              have ihw := ihn rest2 hrest2 (.wsSkip (isTermC d))
                ⟨hch'', htab'', htin'', hq1''⟩
              obtain ⟨wschain, wstab, wsq1, wsq2, wstr, wshead⟩ := ihw
              refine ⟨?_, ?_, ?_, ?_, ?_, ?_, ?_, ?_⟩
              · exact goodChain_cons_auto_left (by decide)
                  (goodChain_cons_headNonWs wschain wshead)
              · intro hmem
                rcases List.mem_cons.mp hmem with h' | h'
                · cases h'
                rcases List.mem_cons.mp h' with h' | h'
                · cases h'
                · exact wstab h'
              · rw [mdQ1_cons_nomatch (fun h => absurd h.2 (by decide))]
                rw [(by decide : isTermC '-' = false)]
                rw [mdQ1_cons_nomatch (fun h => by cases h.1)]
                rw [(by decide : isTermC ' ' = false)]
                exact wsq1
              · rw [mdQ2_cons_bullet (by decide), Bool.and_eq_true]
                refine ⟨bulletShape_dash_space wshead, ?_⟩
                rw [mdQ2_cons_nomatch (fun h => by cases h.1)]
                rw [(by decide : isTermC ' ' = false)]
                exact wsq2
              · exact Or.inl (trailSp_match wstr)
              · intro _ y hy
                have : '-' = y := by simpa using hy
                rw [← this]
                decide
              · intro h
                cases h
              · intro _
                simp
            · have hdn : isWsC d = false := by
                cases hv : isWsC d
                · rfl
                · exact absurd hv hwd
              rw [if_neg hwd]
              have ihs := ihn rest2 hrest2 (.scan false)
                ⟨hch'', htab'', htin'', by rw [← term_false_of_not_ws hdn]; exact hq1'',
                 fun h => by cases h⟩
              obtain ⟨hschain, hstab, hsq1, hsq2, hstrail, _, hsheadeq, hsne⟩ := ihs
              refine ⟨?_, ?_, ?_, ?_, ?_, ?_, ?_, ?_⟩
              · exact goodChain_cons_auto_left (bullet_nonWs hbul)
                  (goodChain_cons_auto_left hdn hschain)
              · intro hmem
                rcases List.mem_cons.mp hmem with h' | h'
                · exact htabc h'.symm
                rcases List.mem_cons.mp h' with h' | h'
                · exact htabd h'.symm
                · exact hstab h'
              · rw [mdQ1_cons_nomatch (fun h => absurd h.2 (bullet_ne_hash hbul))]
                rw [bullet_term_false hbul]
                rw [mdQ1_cons_nomatch (fun h => by cases h.1)]
                rw [term_false_of_not_ws hdn]
                exact hsq1
              · rw [mdQ2_cons_bullet hbul, Bool.and_eq_true]
                refine ⟨bulletShape_of_nonWs hdn, ?_⟩
                rw [mdQ2_cons_nomatch (fun h => by cases h.1)]
                rw [term_false_of_not_ws hdn]
                exact hsq2
              · refine Or.inl (trailSp_cons_nonWs (bullet_nonWs hbul) (Or.inl ?_))
                exact trailSp_cons_nonWs hdn (hstrail.imp_right And.left)
              · intro _ y hy
                have : c = y := by simpa using hy
                rw [← this]
                exact bullet_nonWs hbul
              · intro h
                cases h
              · intro _
                simp
        · rw [r3go_scan_cons, if_neg hcond1, if_neg (by
            intro hb
            rw [Bool.and_eq_true] at hb
            exact hbm hb)]
          have ihs := ihn rest hrest (.scan (isTermC c))
            ⟨hch', htab', htin', hq1', fun htc => headNonWs_after_term hch htc⟩
          obtain ⟨hschain, hstab, hsq1, hsq2, hstrail, hshead, hsheadeq, hsne⟩ := ihs
          refine ⟨?_, ?_, ?_, ?_, ?_, ?_, ?_, ?_⟩
          · by_cases htc : isTermC c = true
            · exact goodChain_cons_headNonWs hschain (hshead htc)
            · have htcf : isTermC c = false := by
                cases hv : isTermC c
                · rfl
                · exact absurd hv htc
              exact goodChain_cons_head hschain (hsheadeq htcf) hch
          · intro hmem
            rcases List.mem_cons.mp hmem with h' | h'
            · exact htabc h'.symm
            · exact hstab h'
          · by_cases hm : caret = true ∧ c = '#'
            · obtain ⟨hcar, hcc⟩ := hm
              subst hcar
              subst hcc
              rw [mdQ1_cons_hash, Bool.and_eq_true]
              rw [mdQ1_cons_hash, Bool.and_eq_true] at hq1
              have h0 : isTermC '#' = false := by decide
              constructor
              · rcases hashShape_eq_true hq1.1 with hrnil | ⟨rest2, hr2, hnn⟩
                · subst hrnil
                  rfl
                · subst hr2
                  cases rest2 with
                  | nil => rfl
                  | cons d rest3 =>
                    have hdn : isWsC d = false := by simpa [nextNonWs] using hnn
                    rw [r3go_scan_cons2, if_neg (by decide), if_neg (by decide)]
                    rw [(by decide : isTermC ' ' = false)]
                    exact hashShape_space_cons (r3go_scan_false_head d rest3) hdn
              · rw [h0] at hsq1
                rw [h0]
                exact hsq1
            · rw [mdQ1_cons_nomatch hm]
              exact hsq1
          · rw [mdQ2_cons_nomatch (fun h => hbm ⟨h.1, h.2⟩)]
            exact hsq2
          · exact outTrail_cons htin hstrail
              (fun ho => by
                by_contra hr
                exact hsne hr ho)
          · intro hcar y hy
            have : c = y := by simpa using hy
            rw [← this]
            exact hh hcar c rfl
          · intro _
            rfl
          · intro _
            simp
      | wsSkip lastT =>
        obtain ⟨hch, htab, htin, hq1⟩ := hs
        have hch' : GoodChain rest := List.Chain'.tail hch
        have htab' : '\t' ∉ rest := fun h' => htab (List.mem_cons_of_mem _ h')
        have htabc : c ≠ '\t' := fun h' => htab (h' ▸ List.mem_cons_self _ _)
        have htin' : TrailInSp rest := trailInSp_tail htin
        have hq1' : mdQ1 (isTermC c) rest = true := mdQ1_thread hq1
        by_cases hwc : isWsC c = true
        · rw [r3go_ws_cons, if_pos hwc]
          exact ihn rest hrest (.wsSkip (isTermC c)) ⟨hch', htab', htin', hq1'⟩
        · have hwcf : isWsC c = false := by
            cases hv : isWsC c
            · rfl
            · exact absurd hv hwc
          by_cases hbm : lastT = true ∧ isBulletC c = true
          · obtain ⟨hlt, hbul⟩ := hbm
            subst hlt
            cases rest with
            | nil =>
              rw [r3go_ws_one, if_neg hwc, if_pos (by simp [hbul])]
              refine ⟨List.chain'_singleton _, ?_, ?_, ?_, ?_, ?_⟩
              · intro hmem
                exact htabc (List.mem_singleton.mp hmem).symm
              · rw [mdQ1_cons_nomatch (fun h => by cases h.1)]
                cases hit : isTermC c <;> rfl
              · rw [mdQ2_cons_nomatch (fun h => by cases h.1)]
                cases hit : isTermC c <;> rfl
              · refine Or.inl (fun y hy => ?_)
                have : c = y := by simpa using hy
                rw [← this]
                exact bullet_nonWs hbul
              · intro y hy
                have : c = y := by simpa using hy
                rw [← this]
                exact bullet_nonWs hbul
            | cons d rest2 =>
              have hrest2 : rest2.length ≤ n := by
                simp only [List.length_cons] at hl
                omega
              have hch'' : GoodChain rest2 := List.Chain'.tail hch'
              have htab'' : '\t' ∉ rest2 := fun h' => htab' (List.mem_cons_of_mem _ h')
              have htabd : d ≠ '\t' := fun h' => htab' (h' ▸ List.mem_cons_self _ _)
              have htin'' : TrailInSp rest2 := trailInSp_tail htin'
              have hq1'' : mdQ1 (isTermC d) rest2 = true := mdQ1_thread hq1'
              rw [r3go_ws_cons2, if_neg hwc, if_pos (by simp [hbul])]
              by_cases hwd : isWsC d = true
              · rw [if_pos hwd]
                have ihw := ihn rest2 hrest2 (.wsSkip (isTermC d))
                  ⟨hch'', htab'', htin'', hq1''⟩
                obtain ⟨wschain, wstab, wsq1, wsq2, wstr, wshead⟩ := ihw
                refine ⟨?_, ?_, ?_, ?_, ?_, ?_⟩
                · exact goodChain_cons_auto_left (by decide)
                    (goodChain_cons_headNonWs wschain wshead)
                · intro hmem
                  rcases List.mem_cons.mp hmem with h' | h'
                  · cases h'
                  rcases List.mem_cons.mp h' with h' | h'
                  · cases h'
                  · exact wstab h'
                · rw [mdQ1_cons_nomatch (fun h => by cases h.1)]
                  rw [(by decide : isTermC '-' = false)]
                  rw [mdQ1_cons_nomatch (fun h => by cases h.1)]
                  rw [(by decide : isTermC ' ' = false)]
                  exact wsq1
                · rw [mdQ2_cons_nomatch (fun h => by cases h.1)]
                  rw [(by decide : isTermC '-' = false)]
                  rw [mdQ2_cons_nomatch (fun h => by cases h.1)]
                  rw [(by decide : isTermC ' ' = false)]
                  exact wsq2
                · exact trailSp_match wstr
                · intro y hy
                  have : '-' = y := by simpa using hy
                  rw [← this]
                  decide
              · have hdn : isWsC d = false := by
                  cases hv : isWsC d
                  · rfl
                  · exact absurd hv hwd
                rw [if_neg hwd]
                have ihs := ihn rest2 hrest2 (.scan false)
                  ⟨hch'', htab'', htin'', by rw [← term_false_of_not_ws hdn]; exact hq1'',
                   fun h => by cases h⟩
                obtain ⟨hschain, hstab, hsq1, hsq2, hstrail, _, hsheadeq, hsne⟩ := ihs
                refine ⟨?_, ?_, ?_, ?_, ?_, ?_⟩
                · exact goodChain_cons_auto_left (bullet_nonWs hbul)
                    (goodChain_cons_auto_left hdn hschain)
                · intro hmem
                  rcases List.mem_cons.mp hmem with h' | h'
                  · exact htabc h'.symm
                  rcases List.mem_cons.mp h' with h' | h'
                  · exact htabd h'.symm
                  · exact hstab h'
                · rw [mdQ1_cons_nomatch (fun h => by cases h.1)]
                  rw [bullet_term_false hbul]
                  rw [mdQ1_cons_nomatch (fun h => by cases h.1)]
                  rw [term_false_of_not_ws hdn]
                  exact hsq1
                · rw [mdQ2_cons_nomatch (fun h => by cases h.1)]
                  rw [bullet_term_false hbul]
                  rw [mdQ2_cons_nomatch (fun h => by cases h.1)]
                  rw [term_false_of_not_ws hdn]
                  exact hsq2
                · refine trailSp_cons_nonWs (bullet_nonWs hbul) (Or.inl ?_)
                  exact trailSp_cons_nonWs hdn (hstrail.imp_right And.left)
                · intro y hy
                  have : c = y := by simpa using hy
                  rw [← this]
                  exact bullet_nonWs hbul
          · rw [r3go_ws_cons, if_neg hwc, if_neg (by
              intro hb
              rw [Bool.and_eq_true] at hb
              exact hbm hb)]
            have ihs := ihn rest hrest (.scan (isTermC c))
              ⟨hch', htab', htin', hq1', fun htc => headNonWs_after_term hch htc⟩
            obtain ⟨hschain, hstab, hsq1, hsq2, hstrail, hshead, hsheadeq, hsne⟩ := ihs
            refine ⟨?_, ?_, ?_, ?_, ?_, ?_⟩
            · exact goodChain_cons_auto_left hwcf hschain
            · intro hmem
              rcases List.mem_cons.mp hmem with h' | h'
              · exact htabc h'.symm
              · exact hstab h'
            · rw [mdQ1_cons_nomatch (fun h => by cases h.1)]
              exact hsq1
            · rw [mdQ2_cons_nomatch (fun h => by cases h.1)]
              exact hsq2
            · exact trailSp_cons_nonWs hwcf (hstrail.imp_right And.left)
            · intro y hy
              have : c = y := by simpa using hy
              rw [← this]
              exact hwcf

/-! ### The numbered-item rule -/

theorem digit_nonWs {c : Char} (h : isDigitC c = true) : isWsC c = false := by
  simp only [isDigitC, Bool.and_eq_true, decide_eq_true_eq] at h
  obtain ⟨h1, h2⟩ := h
  cases hw : isWsC c
  · rfl
  · exfalso
    simp only [isWsC, isSpaceSepC, isTermC, Bool.or_eq_true, Bool.and_eq_true,
      decide_eq_true_eq, or_assoc] at hw
    rcases hw with h' | h' | h' | h' | h' | h' | hr | h' | h' | h' | h' | h' | h' | h' | h'
    all_goals first
      | (subst h'
         first
          | exact absurd h1 (by decide)
          | exact absurd h2 (by decide))
      | exact absurd (le_trans hr.1 h2) (by decide)

theorem digit_term_false {c : Char} (h : isDigitC c = true) : isTermC c = false :=
  term_false_of_not_ws (digit_nonWs h)

theorem digit_ne_hash {c : Char} (h : isDigitC c = true) : c ≠ '#' := by
  intro he
  rw [he] at h
  exact absurd h (by decide)

theorem digit_not_bullet {c : Char} (h : isDigitC c = true) : isBulletC c = false := by
  cases hb : isBulletC c
  · rfl
  · rcases (by simpa [isBulletC] using hb : c = '-' ∨ c = '*') with h' | h' <;>
      (rw [h'] at h; exact absurd h (by decide))

theorem headNonWs_of_head {X : List Char} {y : Char} (h : X.head? = some y)
    (hy : isWsC y = false) : HeadNonWs X := by
  intro z hz
  rw [h] at hz
  have : y = z := by simpa using hz
  rw [← this]
  exact hy

theorem head?_append_of_ne_nil {P : List Char} (Q : List Char) (h : P ≠ []) :
    (P ++ Q).head? = P.head? := by
  cases P with
  | nil => exact absurd rfl h
  | cons a P' => rfl

theorem dotShape_of_nonWs {d : Char} {r : List Char} (hd : isWsC d = false) :
    dotShape (d :: r) = true := by
  simp only [dotShape]
  rw [if_neg (by simp [hd])]

theorem dotShape_of_head {X : List Char} {y : Char} (h : X.head? = some y)
    (hy : isWsC y = false) : dotShape X = true := by
  cases X with
  | nil => rfl
  | cons e r =>
    have he : e = y := by simpa using h
    subst he
    exact dotShape_of_nonWs hy

theorem dotShape_space {X : List Char} (h : HeadNonWs X) :
    dotShape (' ' :: X) = true := by
  simp only [dotShape]
  rw [if_pos (by decide : isWsC ' ' = true)]
  simp [nextNonWs_of_headNonWs h]

theorem bulletShape_of_head {c : Char} {X : List Char} {y : Char}
    (h : X.head? = some y) (hy : isWsC y = false) : bulletShape c X = true := by
  cases X with
  | nil => rfl
  | cons e r =>
    have he : e = y := by simpa using h
    subst he
    exact bulletShape_of_nonWs hy

theorem bulletShape_eq_true {c : Char} {rest : List Char}
    (h : bulletShape c rest = true) :
    rest = [] ∨ (∃ d rest2, rest = d :: rest2 ∧ isWsC d = false) ∨
      (∃ rest2, rest = ' ' :: rest2 ∧ c = '-' ∧ nextNonWs rest2 = true) := by
  cases rest with
  | nil => exact Or.inl rfl
  | cons d rest2 =>
    by_cases hw : isWsC d = true
    · right
      right
      simp only [bulletShape] at h
      rw [if_pos hw] at h
      simp only [Bool.and_eq_true, decide_eq_true_eq] at h
      obtain ⟨⟨hc, hd⟩, hn⟩ := h
      subst hd
      exact ⟨rest2, rfl, hc, hn⟩
    · right
      left
      refine ⟨d, rest2, rfl, ?_⟩
      cases hv : isWsC d
      · rfl
      · exact absurd hv hw

theorem trailSp_pair_cons {x : Char} (hx : isWsC x = false) {W : List Char}
    (htr : TrailSp W) : TrailSp (x :: ' ' :: W) := by
  rcases htr with hl | ⟨w, y, hw, hy⟩
  · cases W with
    | nil => exact Or.inr ⟨[], x, rfl, hx⟩
    | cons e r =>
      left
      intro d hd
      apply hl
      rw [List.getLast?_cons_cons, List.getLast?_cons_cons] at hd
      exact hd
  · right
    exact ⟨x :: ' ' :: w, y, by rw [hw]; simp, hy⟩

theorem goodChain_append_run {P Y : List Char} (hP : ∀ x ∈ P, isWsC x = false)
    (hY : GoodChain Y) : GoodChain (P ++ Y) := by
  induction P with
  | nil => simpa using hY
  | cons a P' ih =>
    exact goodChain_cons_auto_left (hP a (List.mem_cons_self _ _))
      (ih (fun x hx => hP x (List.mem_cons_of_mem _ hx)))

theorem trailSp_append_run {P Y : List Char} (hP : ∀ x ∈ P, isWsC x = false) :
    P ≠ [] → (TrailSp Y ∨ Y = [' ']) → TrailSp (P ++ Y) := by
  induction P with
  | nil =>
    intro h _
    exact absurd rfl h
  | cons a P' ih =>
    intro _ hY
    cases P' with
    | nil => exact trailSp_cons_nonWs (hP a (List.mem_cons_self _ _)) hY
    | cons b P'' =>
      exact trailSp_cons_nonWs (hP a (List.mem_cons_self _ _))
        (Or.inl (ih (fun x hx => hP x (List.mem_cons_of_mem _ hx)) (by simp) hY))

theorem mdQ1_append_run {P : List Char}
    (hP : ∀ x ∈ P, isTermC x = false ∧ x ≠ '#') :
    ∀ (caret : Bool) (Y : List Char), P ≠ [] →
      mdQ1 caret (P ++ Y) = mdQ1 false Y := by
  induction P with
  | nil =>
    intro caret Y h
    exact absurd rfl h
  | cons a P' ih =>
    intro caret Y _
    have ha := hP a (List.mem_cons_self _ _)
    rw [List.cons_append, mdQ1_cons_nomatch (fun h => ha.2 h.2), ha.1]
    cases P' with
    | nil => rw [List.nil_append]
    | cons b P'' =>
      exact ih (fun x hx => hP x (List.mem_cons_of_mem _ hx)) false Y (by simp)

theorem mdQ2_append_run {P : List Char}
    (hP : ∀ x ∈ P, isTermC x = false ∧ isBulletC x = false) :
    ∀ (caret : Bool) (Y : List Char), P ≠ [] →
      mdQ2 caret (P ++ Y) = mdQ2 false Y := by
  induction P with
  | nil =>
    intro caret Y h
    exact absurd rfl h
  | cons a P' ih =>
    intro caret Y _
    have ha := hP a (List.mem_cons_self _ _)
    rw [List.cons_append, mdQ2_cons_nomatch (fun h => by rw [ha.2] at h; cases h.2),
      ha.1]
    cases P' with
    | nil => rw [List.nil_append]
    | cons b P'' =>
      exact ih (fun x hx => hP x (List.mem_cons_of_mem _ hx)) false Y (by simp)

theorem mdQ3_scan_cons (pw : Bool) (c : Char) (rest : List Char) :
    mdQ3go (.scan pw) (c :: rest) =
      if !pw && isDigitC c then mdQ3go .dig rest
      else mdQ3go (.scan (isWordC c)) rest := rfl

theorem mdQ3_dig_cons (c : Char) (rest : List Char) :
    mdQ3go .dig (c :: rest) =
      if isDigitC c then mdQ3go .dig rest
      else if c = '.' then dotShape rest && mdQ3go (.scan false) rest
      else mdQ3go (.scan (isWordC c)) rest := rfl

theorem mdQ3_dig_run {P : List Char} (hP : ∀ x ∈ P, isDigitC x = true) :
    ∀ Y, mdQ3go .dig (P ++ Y) = mdQ3go .dig Y := by
  induction P with
  | nil =>
    intro Y
    rw [List.nil_append]
  | cons a P' ih =>
    intro Y
    have ha := hP a (List.mem_cons_self _ _)
    rw [List.cons_append, mdQ3_dig_cons, if_pos ha]
    exact ih (fun x hx => hP x (List.mem_cons_of_mem _ hx)) Y

theorem mdQ3_digits_append {P : List Char} (hP : ∀ x ∈ P, isDigitC x = true) :
    ∀ Y, P ≠ [] → mdQ3go (.scan false) (P ++ Y) = mdQ3go .dig Y := by
  intro Y hne
  cases P with
  | nil => exact absurd rfl hne
  | cons a P' =>
    have ha := hP a (List.mem_cons_self _ _)
    rw [List.cons_append, mdQ3_scan_cons, if_pos (by simp [ha])]
    exact mdQ3_dig_run (fun x hx => hP x (List.mem_cons_of_mem _ hx)) Y

theorem r4go_scan_one (pw : Bool) (c : Char) :
    r4go (.scan pw) [c] =
      if !pw && isDigitC c then r4go (.digits [c]) []
      else c :: r4go (.scan (isWordC c)) [] := rfl

theorem r4go_scan_cons2 (pw : Bool) (c d : Char) (rest2 : List Char) :
    r4go (.scan pw) (c :: d :: rest2) =
      if !pw && isDigitC c then r4go (.digits [c]) (d :: rest2)
      else c :: r4go (.scan (isWordC c)) (d :: rest2) := rfl

theorem r4go_scan_cons (pw : Bool) (c : Char) (rest : List Char) :
    r4go (.scan pw) (c :: rest) =
      if !pw && isDigitC c then r4go (.digits [c]) rest
      else c :: r4go (.scan (isWordC c)) rest := by
  cases rest with
  | nil => exact r4go_scan_one pw c
  | cons d rest2 => exact r4go_scan_cons2 pw c d rest2

theorem r4go_digits_one (rbuf : List Char) (c : Char) :
    r4go (.digits rbuf) [c] =
      if isDigitC c then r4go (.digits (c :: rbuf)) []
      else if c = '.' then rbuf.reverse ++ ['.']
      else rbuf.reverse ++ c :: r4go (.scan (isWordC c)) [] := rfl

theorem r4go_digits_cons2 (rbuf : List Char) (c d : Char) (rest2 : List Char) :
    r4go (.digits rbuf) (c :: d :: rest2) =
      if isDigitC c then r4go (.digits (c :: rbuf)) (d :: rest2)
      else if c = '.' then
        (if isWsC d then rbuf.reverse ++ '.' :: ' ' :: r4go .wsSkip rest2
         else if isDigitC d then rbuf.reverse ++ '.' :: r4go (.digits [d]) rest2
         else rbuf.reverse ++ '.' :: d :: r4go (.scan (isWordC d)) rest2)
      else rbuf.reverse ++ c :: r4go (.scan (isWordC c)) (d :: rest2) := rfl

theorem r4go_digits_cons (rbuf : List Char) (c : Char) (rest : List Char) :
    r4go (.digits rbuf) (c :: rest) =
      if isDigitC c then r4go (.digits (c :: rbuf)) rest
      else if c = '.' then
        (match rest with
         | d :: rest2 =>
           if isWsC d then rbuf.reverse ++ '.' :: ' ' :: r4go .wsSkip rest2
           else if isDigitC d then rbuf.reverse ++ '.' :: r4go (.digits [d]) rest2
           else rbuf.reverse ++ '.' :: d :: r4go (.scan (isWordC d)) rest2
         | [] => rbuf.reverse ++ ['.'])
      else rbuf.reverse ++ c :: r4go (.scan (isWordC c)) rest := by
  cases rest with
  | nil => exact r4go_digits_one rbuf c
  | cons d rest2 => exact r4go_digits_cons2 rbuf c d rest2

theorem r4go_wsSkip_one (c : Char) :
    r4go .wsSkip [c] =
      if isWsC c then r4go .wsSkip []
      else if isDigitC c then r4go (.digits [c]) []
      else c :: r4go (.scan (isWordC c)) [] := rfl

theorem r4go_wsSkip_cons2 (c d : Char) (rest2 : List Char) :
    r4go .wsSkip (c :: d :: rest2) =
      if isWsC c then r4go .wsSkip (d :: rest2)
      else if isDigitC c then r4go (.digits [c]) (d :: rest2)
      else c :: r4go (.scan (isWordC c)) (d :: rest2) := rfl

theorem r4go_wsSkip_cons (c : Char) (rest : List Char) :
    r4go .wsSkip (c :: rest) =
      if isWsC c then r4go .wsSkip rest
      else if isDigitC c then r4go (.digits [c]) rest
      else c :: r4go (.scan (isWordC c)) rest := by
  cases rest with
  | nil => exact r4go_wsSkip_one c
  | cons d rest2 => exact r4go_wsSkip_cons2 c d rest2

theorem r4go_digits_head : ∀ (l rbuf : List Char), rbuf ≠ [] →
    (r4go (.digits rbuf) l).head? = rbuf.reverse.head? := by
  intro l
  induction l with
  | nil =>
    intro rbuf _
    rfl
  | cons c rest ih =>
    intro rbuf h
    have hrev : rbuf.reverse ≠ [] := by simpa using h
    cases rest with
    | nil =>
      rw [r4go_digits_one]
      by_cases hd : isDigitC c = true
      · rw [if_pos hd]
        show ((c :: rbuf).reverse).head? = rbuf.reverse.head?
        rw [List.reverse_cons, head?_append_of_ne_nil _ hrev]
      · rw [if_neg hd]
        by_cases hdot : c = '.'
        · rw [if_pos hdot]
          exact head?_append_of_ne_nil _ hrev
        · rw [if_neg hdot]
          exact head?_append_of_ne_nil _ hrev
    | cons d rest2 =>
      rw [r4go_digits_cons2]
      by_cases hd : isDigitC c = true
      · rw [if_pos hd]
        rw [ih (c :: rbuf) (by simp)]
        rw [List.reverse_cons, head?_append_of_ne_nil _ hrev]
      · rw [if_neg hd]
        by_cases hdot : c = '.'
        · rw [if_pos hdot]
          by_cases hwd : isWsC d = true
          · rw [if_pos hwd]
            exact head?_append_of_ne_nil _ hrev
          · rw [if_neg hwd]
            by_cases hdd : isDigitC d = true
            · rw [if_pos hdd]
              exact head?_append_of_ne_nil _ hrev
            · rw [if_neg hdd]
              exact head?_append_of_ne_nil _ hrev
        · rw [if_neg hdot]
          exact head?_append_of_ne_nil _ hrev

theorem r4go_scan_head (pw : Bool) (c : Char) (rest : List Char) :
    (r4go (.scan pw) (c :: rest)).head? = some c := by
  rw [r4go_scan_cons]
  by_cases hd : (!pw && isDigitC c) = true
  · rw [if_pos hd]
    rw [r4go_digits_head rest [c] (by simp)]
    rfl
  · rw [if_neg hd]
    rfl

def R4InInv : R4S → Bool → List Char → Prop
  | .scan _, caret, l => GoodChain l ∧ '\t' ∉ l ∧ TrailInSp l ∧
      mdQ1 caret l = true ∧ mdQ2 caret l = true
  | .digits rbuf, _, l => GoodChain l ∧ '\t' ∉ l ∧ TrailInSp l ∧
      mdQ1 false l = true ∧ mdQ2 false l = true ∧
      rbuf ≠ [] ∧ ∀ x ∈ rbuf, isDigitC x = true
  | .wsSkip, b, l => GoodChain l ∧ '\t' ∉ l ∧ TrailInSp l ∧
      mdQ1 b l = true ∧ mdQ2 b l = true

def R4OutSpec : R4S → Bool → List Char → List Char → Prop
  | .scan pw, caret, l, out => GoodChain out ∧ '\t' ∉ out ∧ mdQ1 caret out = true ∧
      mdQ2 caret out = true ∧ mdQ3go (.scan pw) out = true ∧
      (TrailSp out ∨ (out = [' '] ∧ l = [' '])) ∧ out.head? = l.head?
  | .digits rbuf, caret0, _, out => GoodChain out ∧ '\t' ∉ out ∧
      mdQ1 caret0 out = true ∧ mdQ2 caret0 out = true ∧
      mdQ3go (.scan false) out = true ∧ TrailSp out ∧
      out.head? = rbuf.reverse.head?
  | .wsSkip, _, _, out => GoodChain out ∧ '\t' ∉ out ∧ mdQ1 false out = true ∧
      mdQ2 false out = true ∧ mdQ3go (.scan false) out = true ∧ TrailSp out ∧
      HeadNonWs out

theorem r4go_out_nil (s : R4S) (caret : Bool) (hs : R4InInv s caret []) :
    R4OutSpec s caret [] (r4go s []) := by
  cases s with
  | scan pw =>
    have hout : r4go (.scan pw) [] = [] := rfl
    rw [hout]
    exact ⟨List.chain'_nil, by simp, by cases caret <;> rfl, by cases caret <;> rfl,
      by cases pw <;> rfl, Or.inl (Or.inl (fun d hd => by simp at hd)), rfl⟩
  | digits rbuf =>
    obtain ⟨-, -, -, -, -, hne, hdig⟩ := hs
    have hrev : rbuf.reverse ≠ [] := by simpa using hne
    have hPd : ∀ x ∈ rbuf.reverse, isDigitC x = true :=
      fun x hx => hdig x (List.mem_reverse.mp hx)
    have hPws : ∀ x ∈ rbuf.reverse, isWsC x = false :=
      fun x hx => digit_nonWs (hPd x hx)
    have hout : r4go (.digits rbuf) [] = rbuf.reverse := rfl
    rw [hout]
    refine ⟨?_, ?_, ?_, ?_, ?_, ?_, rfl⟩
    · have h := goodChain_append_run hPws List.chain'_nil
      simpa using h
    · intro hmem
      exact absurd (hPd _ hmem) (by decide)
    · have h := mdQ1_append_run
        (fun x hx => ⟨digit_term_false (hPd x hx), digit_ne_hash (hPd x hx)⟩)
        caret [] hrev
      rw [List.append_nil] at h
      exact h
    · have h := mdQ2_append_run
        (fun x hx => ⟨digit_term_false (hPd x hx), digit_not_bullet (hPd x hx)⟩)
        caret [] hrev
      rw [List.append_nil] at h
      exact h
    · have h := mdQ3_digits_append hPd [] hrev
      rw [List.append_nil] at h
      exact h
    · have h := trailSp_append_run hPws hrev
        (show TrailSp [] ∨ ([] : List Char) = [' '] from
          Or.inl (Or.inl (fun y hy => by simp at hy)))
      rw [List.append_nil] at h
      exact h
  | wsSkip =>
    have hout : r4go .wsSkip [] = [] := rfl
    rw [hout]
    exact ⟨List.chain'_nil, by simp, rfl, rfl, rfl,
      Or.inl (fun d hd => by simp at hd), fun d hd => by simp at hd⟩

theorem r4go_out : ∀ (n : Nat) (l : List Char), l.length ≤ n →
    ∀ (s : R4S) (caret : Bool),
    R4InInv s caret l → R4OutSpec s caret l (r4go s l) := by
  intro n
  induction n with
  | zero =>
    intro l hl s caret hs
    have hnil : l = [] := List.length_eq_zero.mp (Nat.le_zero.mp hl)
    subst hnil
    exact r4go_out_nil s caret hs
  | succ n ihn =>
    intro l hl s caret hs
    cases l with
    | nil => exact r4go_out_nil s caret hs
    | cons c rest =>
      have hrest : rest.length ≤ n := by
        simp only [List.length_cons] at hl
        omega
      cases s with
      | scan pw =>
        obtain ⟨hch, htab, htin, hq1, hq2⟩ := hs
        have hch' : GoodChain rest := List.Chain'.tail hch
        have htab' : '\t' ∉ rest := fun h' => htab (List.mem_cons_of_mem _ h')
        have htabc : c ≠ '\t' := fun h' => htab (h' ▸ List.mem_cons_self _ _)
        have htin' : TrailInSp rest := trailInSp_tail htin
        by_cases hd : (!pw && isDigitC c) = true
        · rw [r4go_scan_cons, if_pos hd]
          have hdig : isDigitC c = true := (Bool.and_eq_true_iff.mp hd).2
          have hpw : pw = false := by simpa using (Bool.and_eq_true_iff.mp hd).1
          have hq1' : mdQ1 false rest = true := by
            have h := mdQ1_thread hq1
            rwa [digit_term_false hdig] at h
          have hq2' : mdQ2 false rest = true := by
            have h := mdQ2_thread hq2
            rwa [digit_term_false hdig] at h
          have ihd := ihn rest hrest (.digits [c]) caret
            ⟨hch', htab', htin', hq1', hq2', by simp, by
              intro x hx
              have hxc : x = c := by simpa using hx
              rw [hxc]
              exact hdig⟩
          obtain ⟨dchain, dtab, dq1, dq2, dq3, dtrail, dhead⟩ := ihd
          refine ⟨dchain, dtab, dq1, dq2, ?_, Or.inl dtrail, ?_⟩
          · rw [hpw]
            exact dq3
          · rw [dhead]
            rfl
        · rw [r4go_scan_cons, if_neg hd]
          have ihs := ihn rest hrest (.scan (isWordC c)) (isTermC c)
            ⟨hch', htab', htin', mdQ1_thread hq1, mdQ2_thread hq2⟩
          obtain ⟨schain, stab, sq1, sq2, sq3, strail, shead⟩ := ihs
          refine ⟨?_, ?_, ?_, ?_, ?_, ?_, rfl⟩
          · exact goodChain_cons_head schain shead hch
          · intro hmem
            rcases List.mem_cons.mp hmem with h' | h'
            · exact htabc h'.symm
            · exact stab h'
          · by_cases hm : caret = true ∧ c = '#'
            · obtain ⟨hcar, hcc⟩ := hm
              subst hcar
              subst hcc
              rw [mdQ1_cons_hash, Bool.and_eq_true]
              rw [mdQ1_cons_hash, Bool.and_eq_true] at hq1
              constructor
              · rcases hashShape_eq_true hq1.1 with hrnil | ⟨rest2, hr2, hnn⟩
                · subst hrnil
                  decide
                · subst hr2
                  cases rest2 with
                  | nil => decide
                  | cons d rest3 =>
                    have hdn : isWsC d = false := by simpa [nextNonWs] using hnn
                    have hstep : r4go (.scan (isWordC '#')) (' ' :: d :: rest3) =
                        ' ' :: r4go (.scan (isWordC ' ')) (d :: rest3) := rfl
                    rw [hstep]
                    exact hashShape_space_cons
                      (r4go_scan_head (isWordC ' ') d rest3) hdn
              · have h0 : isTermC '#' = false := by decide
                rw [h0] at sq1
                exact sq1
            · rw [mdQ1_cons_nomatch hm]
              exact sq1
          · by_cases hm : caret = true ∧ isBulletC c = true
            · obtain ⟨hcar, hbul⟩ := hm
              subst hcar
              rw [mdQ2_cons_bullet hbul, Bool.and_eq_true]
              rw [mdQ2_cons_bullet hbul, Bool.and_eq_true] at hq2
              constructor
              · rcases bulletShape_eq_true hq2.1 with
                  hrnil | ⟨d, rest2, hr2, hdn⟩ | ⟨rest2, hr2, hcdash, hnn⟩
                · subst hrnil
                  rfl
                · subst hr2
                  exact bulletShape_of_head (r4go_scan_head (isWordC c) d rest2) hdn
                · subst hr2
                  subst hcdash
                  cases rest2 with
                  | nil => decide
                  | cons f rest3 =>
                    have hfn : isWsC f = false := by simpa [nextNonWs] using hnn
                    have hstep : r4go (.scan (isWordC '-')) (' ' :: f :: rest3) =
                        ' ' :: r4go (.scan (isWordC ' ')) (f :: rest3) := rfl
                    rw [hstep]
                    exact bulletShape_dash_space
                      (headNonWs_of_head (r4go_scan_head (isWordC ' ') f rest3) hfn)
              · have h0 : isTermC c = false := bullet_term_false hbul
                rw [h0] at sq2
                exact sq2
            · rw [mdQ2_cons_nomatch hm]
              exact sq2
          · rw [mdQ3_scan_cons, if_neg hd]
            exact sq3
          · refine outTrail_cons htin strail ?_
            intro ho
            rw [ho] at shead
            cases hr : rest with
            | nil => rfl
            | cons e r2 =>
              rw [hr] at shead
              simp at shead
      | digits rbuf =>
        obtain ⟨hch, htab, htin, hq1, hq2, hne, hdig⟩ := hs
        have hch' : GoodChain rest := List.Chain'.tail hch
        have htab' : '\t' ∉ rest := fun h' => htab (List.mem_cons_of_mem _ h')
        have htabc : c ≠ '\t' := fun h' => htab (h' ▸ List.mem_cons_self _ _)
        have htin' : TrailInSp rest := trailInSp_tail htin
        have hrev : rbuf.reverse ≠ [] := by simpa using hne
        have hPd : ∀ x ∈ rbuf.reverse, isDigitC x = true :=
          fun x hx => hdig x (List.mem_reverse.mp hx)
        have hPws : ∀ x ∈ rbuf.reverse, isWsC x = false :=
          fun x hx => digit_nonWs (hPd x hx)
        have hPq1 : ∀ x ∈ rbuf.reverse, isTermC x = false ∧ x ≠ '#' :=
          fun x hx => ⟨digit_term_false (hPd x hx), digit_ne_hash (hPd x hx)⟩
        have hPq2 : ∀ x ∈ rbuf.reverse, isTermC x = false ∧ isBulletC x = false :=
          fun x hx => ⟨digit_term_false (hPd x hx), digit_not_bullet (hPd x hx)⟩
        have hPtab : '\t' ∉ rbuf.reverse := fun hmem => absurd (hPd _ hmem) (by decide)
        by_cases hdc : isDigitC c = true
        · rw [r4go_digits_cons, if_pos hdc]
          have hq1' : mdQ1 false rest = true := by
            have h := mdQ1_thread hq1
            rwa [digit_term_false hdc] at h
          have hq2' : mdQ2 false rest = true := by
            have h := mdQ2_thread hq2
            rwa [digit_term_false hdc] at h
          have ihd := ihn rest hrest (.digits (c :: rbuf)) caret
            ⟨hch', htab', htin', hq1', hq2', by simp, by
              intro x hx
              rcases List.mem_cons.mp hx with h' | h'
              · rw [h']
                exact hdc
              · exact hdig x h'⟩
          obtain ⟨dchain, dtab, dq1, dq2, dq3, dtrail, dhead⟩ := ihd
          refine ⟨dchain, dtab, dq1, dq2, dq3, dtrail, ?_⟩
          rw [dhead, List.reverse_cons, head?_append_of_ne_nil _ hrev]
        · by_cases hdot : c = '.'
          · subst hdot
            cases rest with
            | nil =>
              rw [r4go_digits_one, if_neg hdc, if_pos rfl]
              refine ⟨?_, ?_, ?_, ?_, ?_, ?_, ?_⟩
              · exact goodChain_append_run hPws (List.chain'_singleton _)
              · intro hmem
                rcases List.mem_append.mp hmem with h' | h'
                · exact absurd (hPd _ h') (by decide)
                · simp at h'
              · rw [mdQ1_append_run hPq1 caret _ hrev]
                decide
              · rw [mdQ2_append_run hPq2 caret _ hrev]
                decide
              · rw [mdQ3_digits_append hPd _ hrev]
                decide
              · exact trailSp_append_run hPws hrev
                  (Or.inl (Or.inl (fun y hy => by
                    have : '.' = y := by simpa using hy
                    rw [← this]
                    decide)))
              · exact head?_append_of_ne_nil _ hrev
            | cons d rest2 =>
              have hrest2 : rest2.length ≤ n := by
                simp only [List.length_cons] at hl
                omega
              have hch'' : GoodChain rest2 := List.Chain'.tail hch'
              have htab'' : '\t' ∉ rest2 := fun h' => htab' (List.mem_cons_of_mem _ h')
              have htabd : d ≠ '\t' := fun h' => htab' (h' ▸ List.mem_cons_self _ _)
              have htin'' : TrailInSp rest2 := trailInSp_tail htin'
              have hq1'' : mdQ1 (isTermC d) rest2 = true := mdQ1_thread (mdQ1_thread hq1)
              have hq2'' : mdQ2 (isTermC d) rest2 = true := mdQ2_thread (mdQ2_thread hq2)
              rw [r4go_digits_cons2, if_neg hdc, if_pos rfl]
              by_cases hwd : isWsC d = true
              · rw [if_pos hwd]
                have ihw := ihn rest2 hrest2 .wsSkip (isTermC d)
                  ⟨hch'', htab'', htin'', hq1'', hq2''⟩
                obtain ⟨wchain, wtab, wq1, wq2, wq3, wtrail, whead⟩ := ihw
                refine ⟨?_, ?_, ?_, ?_, ?_, ?_, ?_⟩
                · refine goodChain_append_run hPws ?_
                  exact goodChain_cons_auto_left (by decide)
                    (goodChain_cons_headNonWs wchain whead)
                · intro hmem
                  rcases List.mem_append.mp hmem with h' | h'
                  · exact absurd (hPd _ h') (by decide)
                  rcases List.mem_cons.mp h' with h' | h'
                  · cases h'
                  rcases List.mem_cons.mp h' with h' | h'
                  · cases h'
                  · exact wtab h'
                · rw [mdQ1_append_run hPq1 caret _ hrev]
                  rw [mdQ1_cons_nomatch (fun h => by cases h.1)]
                  rw [(by decide : isTermC '.' = false)]
                  rw [mdQ1_cons_nomatch (fun h => by cases h.1)]
                  rw [(by decide : isTermC ' ' = false)]
                  exact wq1
                · rw [mdQ2_append_run hPq2 caret _ hrev]
                  rw [mdQ2_cons_nomatch (fun h => by cases h.1)]
                  rw [(by decide : isTermC '.' = false)]
                  rw [mdQ2_cons_nomatch (fun h => by cases h.1)]
                  rw [(by decide : isTermC ' ' = false)]
                  exact wq2
                · rw [mdQ3_digits_append hPd _ hrev]
                  rw [mdQ3_dig_cons, if_neg (by decide), if_pos rfl, Bool.and_eq_true]
                  refine ⟨dotShape_space whead, ?_⟩
                  rw [mdQ3_scan_cons, if_neg (by decide)]
                  rw [(by decide : isWordC ' ' = false)]
                  exact wq3
                · exact trailSp_append_run hPws hrev
                    (Or.inl (trailSp_pair_cons (by decide) wtrail))
                · exact head?_append_of_ne_nil _ hrev
              · have hdnf : isWsC d = false := by
                  cases hv : isWsC d
                  · rfl
                  · exact absurd hv hwd
                rw [if_neg hwd]
                by_cases hdd : isDigitC d = true
                · rw [if_pos hdd]
                  have hq1d : mdQ1 false rest2 = true := by
                    have h := hq1''
                    rwa [digit_term_false hdd] at h
                  have hq2d : mdQ2 false rest2 = true := by
                    have h := hq2''
                    rwa [digit_term_false hdd] at h
                  have ihd2 := ihn rest2 hrest2 (.digits [d]) false
                    ⟨hch'', htab'', htin'', hq1d, hq2d, by simp, by
                      intro x hx
                      have hxd : x = d := by simpa using hx
                      rw [hxd]
                      exact hdd⟩
                  obtain ⟨dchain2, dtab2, dq1b, dq2b, dq3b, dtrail2, dhead2⟩ := ihd2
                  have hdHead : (r4go (.digits [d]) rest2).head? = some d := by
                    rw [dhead2]
                    rfl
                  refine ⟨?_, ?_, ?_, ?_, ?_, ?_, ?_⟩
                  · refine goodChain_append_run hPws ?_
                    exact goodChain_cons_auto_left (by decide) dchain2
                  · intro hmem
                    rcases List.mem_append.mp hmem with h' | h'
                    · exact absurd (hPd _ h') (by decide)
                    rcases List.mem_cons.mp h' with h' | h'
                    · cases h'
                    · exact dtab2 h'
                  · rw [mdQ1_append_run hPq1 caret _ hrev]
                    rw [mdQ1_cons_nomatch (fun h => by cases h.1)]
                    rw [(by decide : isTermC '.' = false)]
                    exact dq1b
                  · rw [mdQ2_append_run hPq2 caret _ hrev]
                    rw [mdQ2_cons_nomatch (fun h => by cases h.1)]
                    rw [(by decide : isTermC '.' = false)]
                    exact dq2b
                  · rw [mdQ3_digits_append hPd _ hrev]
                    rw [mdQ3_dig_cons, if_neg (by decide), if_pos rfl, Bool.and_eq_true]
                    exact ⟨dotShape_of_head hdHead (digit_nonWs hdd), dq3b⟩
                  · exact trailSp_append_run hPws hrev
                      (Or.inl (trailSp_cons_nonWs (by decide) (Or.inl dtrail2)))
                  · exact head?_append_of_ne_nil _ hrev
                · rw [if_neg hdd]
                  have ihs2 := ihn rest2 hrest2 (.scan (isWordC d)) (isTermC d)
                    ⟨hch'', htab'', htin'', hq1'', hq2''⟩
                  obtain ⟨schain2, stab2, sq1b, sq2b, sq3b, strail2, shead2⟩ := ihs2
                  refine ⟨?_, ?_, ?_, ?_, ?_, ?_, ?_⟩
                  · refine goodChain_append_run hPws ?_
                    exact goodChain_cons_auto_left (by decide)
                      (goodChain_cons_auto_left hdnf schain2)
                  · intro hmem
                    rcases List.mem_append.mp hmem with h' | h'
                    · exact absurd (hPd _ h') (by decide)
                    rcases List.mem_cons.mp h' with h' | h'
                    · cases h'
                    rcases List.mem_cons.mp h' with h' | h'
                    · exact htabd h'.symm
                    · exact stab2 h'
                  · rw [mdQ1_append_run hPq1 caret _ hrev]
                    rw [mdQ1_cons_nomatch (fun h => by cases h.1)]
                    rw [(by decide : isTermC '.' = false)]
                    rw [mdQ1_cons_nomatch (fun h => by cases h.1)]
                    exact sq1b
                  · rw [mdQ2_append_run hPq2 caret _ hrev]
                    rw [mdQ2_cons_nomatch (fun h => by cases h.1)]
                    rw [(by decide : isTermC '.' = false)]
                    rw [mdQ2_cons_nomatch (fun h => by cases h.1)]
                    exact sq2b
                  · rw [mdQ3_digits_append hPd _ hrev]
                    rw [mdQ3_dig_cons, if_neg (by decide), if_pos rfl, Bool.and_eq_true]
                    refine ⟨dotShape_of_nonWs hdnf, ?_⟩
                    rw [mdQ3_scan_cons, if_neg (by simp [hdd])]
                    exact sq3b
                  · refine trailSp_append_run hPws hrev (Or.inl ?_)
                    refine trailSp_cons_nonWs (by decide) (Or.inl ?_)
                    exact trailSp_cons_nonWs hdnf (strail2.imp_right And.left)
                  · exact head?_append_of_ne_nil _ hrev
          · rw [r4go_digits_cons, if_neg hdc, if_neg hdot]
            have ihs := ihn rest hrest (.scan (isWordC c)) (isTermC c)
              ⟨hch', htab', htin', mdQ1_thread hq1, mdQ2_thread hq2⟩
            obtain ⟨schain, stab, sq1, sq2, sq3, strail, shead⟩ := ihs
            refine ⟨?_, ?_, ?_, ?_, ?_, ?_, ?_⟩
            · refine goodChain_append_run hPws ?_
              exact goodChain_cons_head schain shead hch
            · intro hmem
              rcases List.mem_append.mp hmem with h' | h'
              · exact absurd (hPd _ h') (by decide)
              rcases List.mem_cons.mp h' with h' | h'
              · exact htabc h'.symm
              · exact stab h'
            · rw [mdQ1_append_run hPq1 caret _ hrev]
              rw [mdQ1_cons_nomatch (fun h => by cases h.1)]
              exact sq1
            · rw [mdQ2_append_run hPq2 caret _ hrev]
              rw [mdQ2_cons_nomatch (fun h => by cases h.1)]
              exact sq2
            · rw [mdQ3_digits_append hPd _ hrev]
              rw [mdQ3_dig_cons, if_neg hdc, if_neg hdot]
              exact sq3
            · refine trailSp_append_run hPws hrev ?_
              refine (outTrail_cons htin strail ?_).imp_right And.left
              intro ho
              rw [ho] at shead
              cases hr : rest with
              | nil => rfl
              | cons e r2 =>
                rw [hr] at shead
                simp at shead
            · exact head?_append_of_ne_nil _ hrev
      | wsSkip =>
        obtain ⟨hch, htab, htin, hq1, hq2⟩ := hs
        have hch' : GoodChain rest := List.Chain'.tail hch
        have htab' : '\t' ∉ rest := fun h' => htab (List.mem_cons_of_mem _ h')
        have htabc : c ≠ '\t' := fun h' => htab (h' ▸ List.mem_cons_self _ _)
        have htin' : TrailInSp rest := trailInSp_tail htin
        by_cases hwc : isWsC c = true
        · rw [r4go_wsSkip_cons, if_pos hwc]
          exact ihn rest hrest .wsSkip (isTermC c)
            ⟨hch', htab', htin', mdQ1_thread hq1, mdQ2_thread hq2⟩
        · have hwcf : isWsC c = false := by
            cases hv : isWsC c
            · rfl
            · exact absurd hv hwc
          rw [r4go_wsSkip_cons, if_neg hwc]
          by_cases hdc : isDigitC c = true
          · rw [if_pos hdc]
            have hq1' : mdQ1 false rest = true := by
              have h := mdQ1_thread hq1
              rwa [digit_term_false hdc] at h
            have hq2' : mdQ2 false rest = true := by
              have h := mdQ2_thread hq2
              rwa [digit_term_false hdc] at h
            have ihd := ihn rest hrest (.digits [c]) false
              ⟨hch', htab', htin', hq1', hq2', by simp, by
                intro x hx
                have hxc : x = c := by simpa using hx
                rw [hxc]
                exact hdc⟩
            obtain ⟨dchain, dtab, dq1, dq2, dq3, dtrail, dhead⟩ := ihd
            refine ⟨dchain, dtab, dq1, dq2, dq3, dtrail, ?_⟩
            intro y hy
            rw [dhead] at hy
            have hyc : c = y := by simpa using hy
            rw [← hyc]
            exact digit_nonWs hdc
          · rw [if_neg hdc]
            have ihs := ihn rest hrest (.scan (isWordC c)) (isTermC c)
              ⟨hch', htab', htin', mdQ1_thread hq1, mdQ2_thread hq2⟩
            obtain ⟨schain, stab, sq1, sq2, sq3, strail, shead⟩ := ihs
            refine ⟨?_, ?_, ?_, ?_, ?_, ?_, ?_⟩
            · exact goodChain_cons_auto_left hwcf schain
            · intro hmem
              rcases List.mem_cons.mp hmem with h' | h'
              · exact htabc h'.symm
              · exact stab h'
            · rw [mdQ1_cons_nomatch (fun h => by cases h.1)]
              exact sq1
            · rw [mdQ2_cons_nomatch (fun h => by cases h.1)]
              exact sq2
            · rw [mdQ3_scan_cons, if_neg (by simp [hdc])]
              exact sq3
            · exact trailSp_cons_nonWs hwcf (strail.imp_right And.left)
            · intro y hy
              have hyc : c = y := by simpa using hy
              rw [← hyc]
              exact hwcf

/-! ### The final trim of `convertToMarkdown` -/

theorem nextNonWs_drop {w : List Char} {x : Char} (hx : isWsC x = false)
    (h : nextNonWs (w ++ [x, ' ']) = true) : nextNonWs (w ++ [x]) = true := by
  cases w with
  | nil => simp [nextNonWs, hx]
  | cons t w' => simpa [nextNonWs] using h

theorem hashShape_drop {w : List Char} {x : Char} (hx : isWsC x = false)
    (h : hashShape (w ++ [x, ' ']) = true) : hashShape (w ++ [x]) = true := by
  cases w with
  | nil =>
    rw [List.nil_append] at h
    rcases hashShape_eq_true h with h' | ⟨r2, hr, _⟩
    · exact absurd h' (List.cons_ne_nil _ _)
    · have hxs : x = ' ' := by simpa using congrArg List.head? hr
      rw [hxs] at hx
      exact absurd hx (by decide)
  | cons u w' =>
    rw [List.cons_append] at h ⊢
    rcases hashShape_eq_true h with h' | ⟨r2, hr, hnn⟩
    · exact absurd h' (List.cons_ne_nil _ _)
    · have hu : u = ' ' := by simpa using congrArg List.head? hr
      subst hu
      have ht : w' ++ [x, ' '] = r2 := by simpa using congrArg List.tail hr
      rw [← ht] at hnn
      show nextNonWs (w' ++ [x]) = true
      exact nextNonWs_drop hx hnn

theorem bulletShape_drop {c : Char} {w : List Char} {x : Char} (hx : isWsC x = false)
    (h : bulletShape c (w ++ [x, ' ']) = true) : bulletShape c (w ++ [x]) = true := by
  cases w with
  | nil => exact bulletShape_of_nonWs hx
  | cons u w' =>
    rw [List.cons_append] at h ⊢
    simp only [bulletShape] at h ⊢
    by_cases hu : isWsC u = true
    · rw [if_pos hu] at h ⊢
      simp only [Bool.and_eq_true] at h ⊢
      exact ⟨h.1, nextNonWs_drop hx h.2⟩
    · rw [if_neg hu]

theorem dotShape_drop {w : List Char} {x : Char} (hx : isWsC x = false)
    (h : dotShape (w ++ [x, ' ']) = true) : dotShape (w ++ [x]) = true := by
  cases w with
  | nil => exact dotShape_of_nonWs hx
  | cons u w' =>
    rw [List.cons_append] at h ⊢
    simp only [dotShape] at h ⊢
    by_cases hu : isWsC u = true
    · rw [if_pos hu] at h ⊢
      simp only [Bool.and_eq_true] at h ⊢
      exact ⟨h.1, nextNonWs_drop hx h.2⟩
    · rw [if_neg hu]

theorem mdQ1_drop_last_space : ∀ (w : List Char) (b : Bool) (x : Char),
    isWsC x = false → mdQ1 b (w ++ [x, ' ']) = true → mdQ1 b (w ++ [x]) = true := by
  intro w
  induction w with
  | nil =>
    intro b x hx h
    rw [List.nil_append] at h ⊢
    by_cases hm : b = true ∧ x = '#'
    · rw [hm.1, hm.2]
      decide
    · rw [mdQ1_cons_nomatch hm]
      cases hv : isTermC x <;> rfl
  | cons a w' ih =>
    intro b x hx h
    rw [List.cons_append] at h ⊢
    by_cases hm : b = true ∧ a = '#'
    · obtain ⟨hb, hah⟩ := hm
      subst hb
      subst hah
      rw [mdQ1_cons_hash, Bool.and_eq_true] at h ⊢
      exact ⟨hashShape_drop hx h.1, ih false x hx h.2⟩
    · rw [mdQ1_cons_nomatch hm] at h ⊢
      exact ih (isTermC a) x hx h

theorem mdQ2_drop_last_space : ∀ (w : List Char) (b : Bool) (x : Char),
    isWsC x = false → mdQ2 b (w ++ [x, ' ']) = true → mdQ2 b (w ++ [x]) = true := by
  intro w
  induction w with
  | nil =>
    intro b x hx h
    rw [List.nil_append] at h ⊢
    by_cases hm : b = true ∧ isBulletC x = true
    · rw [hm.1]
      rw [mdQ2_cons_bullet hm.2, Bool.and_eq_true]
      exact ⟨rfl, rfl⟩
    · rw [mdQ2_cons_nomatch hm]
      cases hv : isTermC x <;> rfl
  | cons a w' ih =>
    intro b x hx h
    rw [List.cons_append] at h ⊢
    by_cases hm : b = true ∧ isBulletC a = true
    · obtain ⟨hb, hbul⟩ := hm
      subst hb
      rw [mdQ2_cons_bullet hbul, Bool.and_eq_true] at h ⊢
      exact ⟨bulletShape_drop hx h.1, ih false x hx h.2⟩
    · rw [mdQ2_cons_nomatch hm] at h ⊢
      exact ih (isTermC a) x hx h

theorem mdQ3_drop_last_space : ∀ (w : List Char) (s : Q3S) (x : Char),
    isWsC x = false → mdQ3go s (w ++ [x, ' ']) = true → mdQ3go s (w ++ [x]) = true := by
  intro w
  induction w with
  | nil =>
    intro s x hx h
    rw [List.nil_append] at h ⊢
    cases s with
    | scan pw =>
      rw [mdQ3_scan_cons]
      by_cases hc : (!pw && isDigitC x) = true
      · rw [if_pos hc]
        rfl
      · rw [if_neg hc]
        rfl
    | dig =>
      rw [mdQ3_dig_cons]
      by_cases hdx : isDigitC x = true
      · rw [if_pos hdx]
        rfl
      · rw [if_neg hdx]
        by_cases hdot : x = '.'
        · rw [if_pos hdot]
          decide
        · rw [if_neg hdot]
          rfl
  | cons a w' ih =>
    intro s x hx h
    rw [List.cons_append] at h ⊢
    cases s with
    | scan pw =>
      rw [mdQ3_scan_cons] at h ⊢
      by_cases hc : (!pw && isDigitC a) = true
      · rw [if_pos hc] at h ⊢
        exact ih .dig x hx h
      · rw [if_neg hc] at h ⊢
        exact ih (.scan (isWordC a)) x hx h
    | dig =>
      rw [mdQ3_dig_cons] at h ⊢
      by_cases hda : isDigitC a = true
      · rw [if_pos hda] at h ⊢
        exact ih .dig x hx h
      · rw [if_neg hda] at h ⊢
        by_cases hdot : a = '.'
        · rw [if_pos hdot] at h ⊢
          rw [Bool.and_eq_true] at h ⊢
          exact ⟨dotShape_drop hx h.1, ih (.scan false) x hx h.2⟩
        · rw [if_neg hdot] at h ⊢
          exact ih (.scan (isWordC a)) x hx h

theorem dropWhile_headNonWs {L : List Char} (h : HeadNonWs L) :
    L.dropWhile isWsC = L := by
  cases L with
  | nil => rfl
  | cons a L' => exact List.dropWhile_cons_of_neg (by simp [h a rfl])

theorem trailSp_ne_space {v : List Char} (h : TrailSp v) : v ≠ [' '] := by
  intro he
  subst he
  rcases h with hl | ⟨w, x, hw, _⟩
  · exact absurd (hl ' ' rfl) (by decide)
  · have := congrArg List.length hw
    simp at this

theorem trailHash_ne_space {b : Bool} {v : List Char} (h : TrailHash b v) :
    v ≠ [' '] := by
  intro he
  subst he
  rcases h with hl | ⟨w, hw, _⟩
  · exact absurd (hl ' ' rfl) (by decide)
  · have := congrArg List.length hw
    simp at this

theorem trailInSp_of_trailHash {b : Bool} {v : List Char} (h : TrailHash b v) :
    TrailInSp v := by
  rcases h with hl | ⟨w, hw, _⟩
  · exact Or.inl hl
  · exact Or.inr (Or.inl ⟨w, '#', hw, by decide⟩)

theorem trailInSp_of_trailSp {v : List Char} (h : TrailSp v) : TrailInSp v :=
  h.imp_right Or.inl

theorem mdTrim_out {v4 : List Char} (hch : GoodChain v4) (htab : '\t' ∉ v4)
    (hq1 : mdQ1 true v4 = true) (hq2 : mdQ2 true v4 = true)
    (hq3 : mdQ3go (.scan false) v4 = true) (htr : TrailSp v4) (hhd : HeadNonWs v4) :
    NormalL (jsTrimL v4) ∧ mdQ1 true (jsTrimL v4) = true ∧
      mdQ2 true (jsTrimL v4) = true ∧ mdQ3go (.scan false) (jsTrimL v4) = true := by
  rcases htr with hlast | ⟨w, x, hw, hx⟩
  · rw [jsTrimL_fix _ hhd hlast]
    exact ⟨⟨hch, hhd, hlast, htab⟩, hq1, hq2, hq3⟩
  · subst hw
    have hvform : w ++ [x, ' '] = (w ++ [x]) ++ [' '] := by simp
    have htrim : jsTrimL (w ++ [x, ' ']) = w ++ [x] := by
      rw [jsTrimL, dropWhile_headNonWs hhd]
      have hrev : (w ++ [x, ' ']).reverse = ' ' :: x :: w.reverse := by simp
      rw [hrev, List.dropWhile_cons_of_pos (by decide),
        List.dropWhile_cons_of_neg (by simp [hx])]
      simp
    rw [htrim]
    have hne : w ++ [x] ≠ [] := by simp
    refine ⟨⟨?_, ?_, ?_, ?_⟩, mdQ1_drop_last_space w true x hx hq1,
      mdQ2_drop_last_space w true x hx hq2,
      mdQ3_drop_last_space w (.scan false) x hx hq3⟩
    · have hch2 : GoodChain ((w ++ [x]) ++ [' ']) := by
        rw [← hvform]
        exact hch
      exact (List.chain'_append.mp hch2).1
    · intro y hy
      apply hhd y
      rw [hvform, head?_append_of_ne_nil _ hne]
      exact hy
    · intro y hy
      rw [List.getLast?_concat] at hy
      have hxy : x = y := by simpa using hy
      rw [← hxy]
      exact hx
    · intro hmem
      apply htab
      rw [hvform]
      exact List.mem_append_left _ hmem

/-- Pass 1 of `convertToMarkdown` on a normal string: the result is again
normal and satisfies the three positional invariants of the heading,
bullet, and numbered-item rules. -/
theorem convertToMarkdownL_out (l : List Char) (h : NormalL l) :
    NormalL (convertToMarkdownL l) ∧ mdQ1 true (convertToMarkdownL l) = true ∧
      mdQ2 true (convertToMarkdownL l) = true ∧
      mdQ3go (.scan false) (convertToMarkdownL l) = true := by
  obtain ⟨h1chain, h1tab, h1q1, h1trail, h1head⟩ := mdR1_out l h
  have h2 : mdR2 (mdR1 l) = mdR1 l := mdR2_fix _ h1chain
  have h3spec := r3go_out (mdR1 l).length (mdR1 l) le_rfl (.scan true)
    ⟨h1chain, h1tab, trailInSp_of_trailHash h1trail, h1q1, fun _ => h1head⟩
  obtain ⟨h3chain, h3tab, h3q1, h3q2, h3traild, h3head, -, -⟩ := h3spec
  have h3trail : TrailSp (mdR3 (mdR1 l)) := by
    rcases h3traild with h' | ⟨-, habs⟩
    · exact h'
    · exact absurd habs (trailHash_ne_space h1trail)
  have h3hd : HeadNonWs (mdR3 (mdR1 l)) := h3head rfl
  have h4spec := r4go_out (mdR3 (mdR1 l)).length (mdR3 (mdR1 l)) le_rfl
    (.scan false) true
    ⟨h3chain, h3tab, trailInSp_of_trailSp h3trail, h3q1, h3q2⟩
  obtain ⟨h4chain, h4tab, h4q1, h4q2, h4q3, h4traild, h4head⟩ := h4spec
  have h4trail : TrailSp (mdR4 (mdR3 (mdR1 l))) := by
    rcases h4traild with h' | ⟨-, habs⟩
    · exact h'
    · exact absurd habs (trailSp_ne_space h3trail)
  have h4hd : HeadNonWs (mdR4 (mdR3 (mdR1 l))) := by
    intro y hy
    have hy2 : (r4go (R4S.scan false) (mdR3 (mdR1 l))).head? = some y := hy
    rw [h4head] at hy2
    exact h3hd y hy2
  have hfin := mdTrim_out h4chain h4tab h4q1 h4q2 h4q3 h4trail h4hd
  rw [convertToMarkdownL, h2]
  exact hfin

/-! ### Second pass: the markdown rules fix their own output

The only rule that is not the identity on a converted string is rule 1 on
a string ending in a heading marker with empty title (a lonely `#` at a
`^` position): the match `(#+)\s*(.*)$` has an empty `$2` there and the
replacement appends one space, which the final trim removes again. -/

def lonelyHash : Bool → List Char → Bool
  | _, [] => false
  | caret, [c] => caret && c = '#'
  | _, c :: rest => lonelyHash (isTermC c) rest

theorem lonelyHash_one (caret : Bool) (c : Char) :
    lonelyHash caret [c] = (caret && c = '#') := rfl

theorem lonelyHash_cons2 (caret : Bool) (c d : Char) (rest : List Char) :
    lonelyHash caret (c :: d :: rest) = lonelyHash (isTermC c) (d :: rest) := rfl

def hashPad : Bool → List Char
  | true => [' ']
  | false => []

theorem lonely_getLast : ∀ (l : List Char) (b : Bool), lonelyHash b l = true →
    l.getLast? = some '#' := by
  intro l
  induction l with
  | nil =>
    intro b h
    simp [lonelyHash] at h
  | cons c rest ih =>
    intro b h
    cases rest with
    | nil =>
      rw [lonelyHash_one, Bool.and_eq_true] at h
      have hc : c = '#' := by simpa using h.2
      rw [hc]
      rfl
    | cons d rest2 =>
      rw [lonelyHash_cons2] at h
      rw [List.getLast?_cons_cons]
      exact ih (isTermC c) h

theorem headNonWs_of_next {r : List Char} (h : nextNonWs r = true) :
    HeadNonWs r := by
  intro y hy
  cases r with
  | nil => simp at hy
  | cons e r' =>
    have he : e = y := by simpa using hy
    rw [← he]
    simpa [nextNonWs] using h

theorem goodChain_append_space {v : List Char} (hch : GoodChain v)
    (hl : LastNonWs v) : GoodChain (v ++ [' ']) := by
  rw [GoodChain, List.chain'_append]
  refine ⟨hch, List.chain'_singleton _, ?_⟩
  intro x hx y _
  exact goodPairB_of_left (hl x hx)

theorem bulletShape_append_space {c : Char} {v : List Char}
    (hlast : v.getLast? = some '#') (h : bulletShape c v = true) :
    bulletShape c (v ++ [' ']) = true := by
  cases v with
  | nil => simp at hlast
  | cons d r =>
    rw [List.cons_append]
    simp only [bulletShape] at h ⊢
    by_cases hw : isWsC d = true
    · rw [if_pos hw] at h ⊢
      simp only [Bool.and_eq_true] at h ⊢
      refine ⟨h.1, ?_⟩
      cases r with
      | nil =>
        have hd : d = '#' := by simpa using hlast
        rw [hd] at hw
        exact absurd hw (by decide)
      | cons e r' => simpa [nextNonWs] using h.2
    · rw [if_neg hw]

theorem dotShape_append_space {v : List Char}
    (hlast : v.getLast? = some '#') (h : dotShape v = true) :
    dotShape (v ++ [' ']) = true := by
  cases v with
  | nil => simp at hlast
  | cons d r =>
    rw [List.cons_append]
    simp only [dotShape] at h ⊢
    by_cases hw : isWsC d = true
    · rw [if_pos hw] at h ⊢
      simp only [Bool.and_eq_true] at h ⊢
      refine ⟨h.1, ?_⟩
      cases r with
      | nil =>
        have hd : d = '#' := by simpa using hlast
        rw [hd] at hw
        exact absurd hw (by decide)
      | cons e r' => simpa [nextNonWs] using h.2
    · rw [if_neg hw]

theorem mdQ2_append_space : ∀ (v : List Char) (b : Bool),
    v.getLast? = some '#' → mdQ2 b v = true → mdQ2 b (v ++ [' ']) = true := by
  intro v
  induction v with
  | nil =>
    intro b hlast _
    simp at hlast
  | cons a v' ih =>
    intro b hlast h
    cases v' with
    | nil =>
      have ha : a = '#' := by simpa using hlast
      subst ha
      rw [List.cons_append, mdQ2_cons_nomatch (fun hb2 => by
        exact absurd hb2.2 (by decide))]
      decide
    | cons c v'' =>
      rw [List.getLast?_cons_cons] at hlast
      rw [List.cons_append]
      by_cases hm : b = true ∧ isBulletC a = true
      · obtain ⟨hb, hbul⟩ := hm
        subst hb
        rw [mdQ2_cons_bullet hbul, Bool.and_eq_true] at h ⊢
        exact ⟨bulletShape_append_space hlast h.1, ih false hlast h.2⟩
      · rw [mdQ2_cons_nomatch hm] at h ⊢
        exact ih (isTermC a) hlast h

theorem mdQ3_append_space : ∀ (v : List Char) (s : Q3S),
    v.getLast? = some '#' → mdQ3go s v = true → mdQ3go s (v ++ [' ']) = true := by
  intro v
  induction v with
  | nil =>
    intro s hlast _
    simp at hlast
  | cons a v' ih =>
    intro s hlast h
    cases v' with
    | nil =>
      have ha : a = '#' := by simpa using hlast
      subst ha
      cases s with
      | scan pw => cases pw <;> decide
      | dig => decide
    | cons c v'' =>
      rw [List.getLast?_cons_cons] at hlast
      rw [List.cons_append]
      cases s with
      | scan pw =>
        rw [mdQ3_scan_cons] at h ⊢
        by_cases hc : (!pw && isDigitC a) = true
        · rw [if_pos hc] at h ⊢
          exact ih .dig hlast h
        · rw [if_neg hc] at h ⊢
          exact ih (.scan (isWordC a)) hlast h
      | dig =>
        rw [mdQ3_dig_cons] at h ⊢
        by_cases hda : isDigitC a = true
        · rw [if_pos hda] at h ⊢
          exact ih .dig hlast h
        · rw [if_neg hda] at h ⊢
          by_cases hdot : a = '.'
          · rw [if_pos hdot] at h ⊢
            rw [Bool.and_eq_true] at h ⊢
            exact ⟨dotShape_append_space hlast h.1, ih (.scan false) hlast h.2⟩
          · rw [if_neg hdot] at h ⊢
            exact ih (.scan (isWordC a)) hlast h

def R1IdInv : R1S → List Char → Prop
  | .scan caret, l => GoodChain l ∧ mdQ1 caret l = true ∧ (caret = true → HeadNonWs l)
  | .hash, l => GoodChain l ∧ hashShape l = true ∧ mdQ1 false l = true
  | .wsSkip, l => GoodChain l ∧ HeadNonWs l ∧ mdQ1 false l = true
  | .dotCopy, l => GoodChain l ∧ mdQ1 false l = true

def R1IdOut : R1S → List Char → List Char
  | .scan caret, l => l ++ hashPad (lonelyHash caret l)
  | .hash, l => l.tail ++ hashPad (lonelyHash false l)
  | .wsSkip, l => l ++ hashPad (lonelyHash false l)
  | .dotCopy, l => l ++ hashPad (lonelyHash false l)

theorem r1go_id : ∀ (l : List Char) (s : R1S), R1IdInv s l →
    r1go s l = R1IdOut s l := by
  intro l
  induction l with
  | nil =>
    intro s _
    cases s <;> rfl
  | cons c rest ih =>
    intro s hs
    cases s with
    | scan caret =>
      obtain ⟨hch, hq1, hh⟩ := hs
      by_cases hm : caret = true ∧ c = '#'
      · obtain ⟨hcar, hcc⟩ := hm
        subst hcar
        subst hcc
        rw [r1go, if_pos (by simp)]
        rw [mdQ1_cons_hash, Bool.and_eq_true] at hq1
        rw [ih .hash ⟨List.Chain'.tail hch, hq1.1, hq1.2⟩]
        rcases hashShape_eq_true hq1.1 with h' | ⟨r2, hr, hnn⟩
        · subst h'
          rfl
        · subst hr
          show '#' :: ' ' :: (r2 ++ hashPad (lonelyHash false (' ' :: r2))) =
            ('#' :: ' ' :: r2) ++ hashPad (lonelyHash true ('#' :: ' ' :: r2))
          rw [lonelyHash_cons2, (by decide : isTermC '#' = false)]
          simp
      · rw [r1go, if_neg (by
          intro hb
          simp only [Bool.and_eq_true, decide_eq_true_eq] at hb
          exact hm hb)]
        rw [ih (.scan (isTermC c)) ⟨List.Chain'.tail hch, mdQ1_thread hq1,
          fun htc => headNonWs_after_term hch htc⟩]
        cases rest with
        | nil =>
          have hlon : lonelyHash caret [c] = false := by
            rw [lonelyHash_one]
            cases hcar : caret
            · rfl
            · have hcn : c ≠ '#' := fun hcc => hm ⟨hcar, hcc⟩
              simp [hcn]
          show c :: ([] ++ hashPad (lonelyHash (isTermC c) [])) =
            [c] ++ hashPad (lonelyHash caret [c])
          rw [hlon]
          rfl
        | cons d rest2 =>
          show c :: ((d :: rest2) ++ hashPad (lonelyHash (isTermC c) (d :: rest2))) =
            (c :: d :: rest2) ++ hashPad (lonelyHash caret (c :: d :: rest2))
          rw [lonelyHash_cons2]
          rfl
    | hash =>
      obtain ⟨hch, hsh, hq1⟩ := hs
      rcases hashShape_eq_true hsh with h' | ⟨r2, hr, hnn⟩
      · exact absurd h' (List.cons_ne_nil _ _)
      · have hc : c = ' ' := by simpa using congrArg List.head? hr
        have hrest : rest = r2 := by simpa using congrArg List.tail hr
        subst hc
        rw [← hrest] at hnn
        rw [r1go, if_neg (by decide), if_pos (by decide)]
        have hq1' : mdQ1 false rest = true := by
          have h := mdQ1_thread hq1
          rwa [(by decide : isTermC ' ' = false)] at h
        rw [ih .wsSkip ⟨List.Chain'.tail hch, headNonWs_of_next hnn, hq1'⟩]
        cases rest with
        | nil => rfl
        | cons d rest2 =>
          show (d :: rest2) ++ hashPad (lonelyHash false (d :: rest2)) =
            (' ' :: d :: rest2).tail ++ hashPad (lonelyHash false (' ' :: d :: rest2))
          rw [lonelyHash_cons2, (by decide : isTermC ' ' = false)]
          rfl
    | wsSkip =>
      obtain ⟨hch, hhd, hq1⟩ := hs
      have hcnw : isWsC c = false := hhd c rfl
      rw [r1go, if_neg (by simp [hcnw])]
      have hq1' : mdQ1 false rest = true := by
        have h := mdQ1_thread hq1
        rwa [term_false_of_not_ws hcnw] at h
      rw [ih .dotCopy ⟨List.Chain'.tail hch, hq1'⟩]
      cases rest with
      | nil =>
        show c :: ([] ++ hashPad (lonelyHash false [])) =
          [c] ++ hashPad (lonelyHash false [c])
        rw [lonelyHash_one]
        simp [term_false_of_not_ws hcnw, lonelyHash, hashPad]
      | cons d rest2 =>
        show c :: ((d :: rest2) ++ hashPad (lonelyHash false (d :: rest2))) =
          (c :: d :: rest2) ++ hashPad (lonelyHash false (c :: d :: rest2))
        rw [lonelyHash_cons2, term_false_of_not_ws hcnw]
        rfl
    | dotCopy =>
      obtain ⟨hch, hq1⟩ := hs
      by_cases htc : isTermC c = true
      · rw [r1go, if_pos htc]
        have hq1' : mdQ1 true rest = true := by
          have h := mdQ1_thread hq1
          rwa [htc] at h
        rw [ih (.scan true) ⟨List.Chain'.tail hch, hq1',
          fun _ => headNonWs_after_term hch htc⟩]
        cases rest with
        | nil =>
          show c :: ([] ++ hashPad (lonelyHash true [])) =
            [c] ++ hashPad (lonelyHash false [c])
          rw [lonelyHash_one]
          simp [lonelyHash, hashPad]
        | cons d rest2 =>
          show c :: ((d :: rest2) ++ hashPad (lonelyHash true (d :: rest2))) =
            (c :: d :: rest2) ++ hashPad (lonelyHash false (c :: d :: rest2))
          rw [lonelyHash_cons2, htc]
          rfl
      · rw [r1go, if_neg htc]
        have htcf : isTermC c = false := by
          cases hv : isTermC c
          · rfl
          · exact absurd hv htc
        have hq1' : mdQ1 false rest = true := by
          have h := mdQ1_thread hq1
          rwa [htcf] at h
        rw [ih .dotCopy ⟨List.Chain'.tail hch, hq1'⟩]
        cases rest with
        | nil =>
          show c :: ([] ++ hashPad (lonelyHash false [])) =
            [c] ++ hashPad (lonelyHash false [c])
          rw [lonelyHash_one]
          simp [lonelyHash, hashPad, htcf]
        | cons d rest2 =>
          show c :: ((d :: rest2) ++ hashPad (lonelyHash false (d :: rest2))) =
            (c :: d :: rest2) ++ hashPad (lonelyHash false (c :: d :: rest2))
          rw [lonelyHash_cons2, htcf]
          rfl

def R3IdInv : R3S → List Char → Prop
  | .scan caret, l => GoodChain l ∧ mdQ2 caret l = true ∧ (caret = true → HeadNonWs l)
  | .collect _, _ => False
  | .wsSkip lastT, l => lastT = false ∧ GoodChain l ∧ mdQ2 false l = true ∧ HeadNonWs l

theorem r3go_id : ∀ (n : Nat) (l : List Char), l.length ≤ n → ∀ s : R3S,
    R3IdInv s l → r3go s l = l := by
  intro n
  induction n with
  | zero =>
    intro l hl s hs
    have hnil : l = [] := List.length_eq_zero.mp (Nat.le_zero.mp hl)
    subst hnil
    cases s with
    | scan caret => rfl
    | collect rbuf => exact hs.elim
    | wsSkip lastT => rfl
  | succ n ihn =>
    intro l hl s hs
    cases l with
    | nil =>
      cases s with
      | scan caret => rfl
      | collect rbuf => exact hs.elim
      | wsSkip lastT => rfl
    | cons c rest =>
      have hrest : rest.length ≤ n := by
        simp only [List.length_cons] at hl
        omega
      cases s with
      | collect rbuf => exact hs.elim
      | scan caret =>
        obtain ⟨hch, hq2, hh⟩ := hs
        have hcond1 : ¬((caret && isWsC c) = true) := by
          intro hb
          rw [Bool.and_eq_true] at hb
          have hws := hh hb.1 c rfl
          rw [hb.2] at hws
          cases hws
        by_cases hbm : caret = true ∧ isBulletC c = true
        · obtain ⟨hcar, hbul⟩ := hbm
          subst hcar
          rw [mdQ2_cons_bullet hbul, Bool.and_eq_true] at hq2
          cases rest with
          | nil =>
            rw [r3go_scan_one, if_neg hcond1, if_pos (by simp [hbul])]
          | cons d rest2 =>
            have hrest2 : rest2.length ≤ n := by
              simp only [List.length_cons] at hl
              omega
            rw [r3go_scan_cons2, if_neg hcond1, if_pos (by simp [hbul])]
            by_cases hwd : isWsC d = true
            · rw [if_pos hwd]
              rcases bulletShape_eq_true hq2.1 with
                h' | ⟨d', r', he, hdn⟩ | ⟨r', he, hcdash, hnn⟩
              · exact absurd h' (List.cons_ne_nil _ _)
              · have hdd : d = d' := by simpa using congrArg List.head? he
                rw [← hdd] at hdn
                rw [hdn] at hwd
                cases hwd
              · have hds : d = ' ' := by simpa using congrArg List.head? he
                have hrq : rest2 = r' := by simpa using congrArg List.tail he
                subst hcdash
                subst hds
                rw [← hrq] at hnn
                have hq2' : mdQ2 false rest2 = true := by
                  have h := mdQ2_thread hq2.2
                  rwa [(by decide : isTermC ' ' = false)] at h
                rw [ihn rest2 hrest2 (.wsSkip (isTermC ' '))
                  ⟨by decide, List.Chain'.tail (List.Chain'.tail hch), hq2',
                   headNonWs_of_next hnn⟩]
            · have hdnf : isWsC d = false := by
                cases hv : isWsC d
                · rfl
                · exact absurd hv hwd
              rw [if_neg hwd]
              have hq2'' : mdQ2 false rest2 = true := by
                have h := mdQ2_thread hq2.2
                rwa [term_false_of_not_ws hdnf] at h
              rw [ihn rest2 hrest2 (.scan false)
                ⟨List.Chain'.tail (List.Chain'.tail hch), hq2'', fun h => by cases h⟩]
        · rw [r3go_scan_cons, if_neg hcond1, if_neg (by
            intro hb
            rw [Bool.and_eq_true] at hb
            exact hbm hb)]
          rw [ihn rest hrest (.scan (isTermC c))
            ⟨List.Chain'.tail hch, mdQ2_thread hq2,
             fun htc => headNonWs_after_term hch htc⟩]
      | wsSkip lastT =>
        obtain ⟨hlt, hch, hq2, hhd⟩ := hs
        subst hlt
        have hcnw : isWsC c = false := hhd c rfl
        rw [r3go_ws_cons, if_neg (by simp [hcnw]), if_neg (by simp)]
        rw [ihn rest hrest (.scan (isTermC c))
          ⟨List.Chain'.tail hch, mdQ2_thread hq2,
           fun htc => headNonWs_after_term hch htc⟩]

def R4IdInv : R4S → List Char → Prop
  | .scan pw, l => mdQ3go (.scan pw) l = true
  | .digits _, l => mdQ3go .dig l = true
  | .wsSkip, l => mdQ3go (.scan false) l = true ∧ HeadNonWs l

def R4IdOut : R4S → List Char → List Char
  | .digits rbuf, l => rbuf.reverse ++ l
  | _, l => l

theorem r4go_id : ∀ (n : Nat) (l : List Char), l.length ≤ n → ∀ s : R4S,
    R4IdInv s l → r4go s l = R4IdOut s l := by
  intro n
  induction n with
  | zero =>
    intro l hl s hs
    have hnil : l = [] := List.length_eq_zero.mp (Nat.le_zero.mp hl)
    subst hnil
    cases s with
    | scan pw => rfl
    | digits rbuf =>
      show (rbuf.reverse : List Char) = rbuf.reverse ++ []
      simp
    | wsSkip => rfl
  | succ n ihn =>
    intro l hl s hs
    cases l with
    | nil =>
      cases s with
      | scan pw => rfl
      | digits rbuf =>
        show (rbuf.reverse : List Char) = rbuf.reverse ++ []
        simp
      | wsSkip => rfl
    | cons c rest =>
      have hrest : rest.length ≤ n := by
        simp only [List.length_cons] at hl
        omega
      cases s with
      | scan pw =>
        have hq3 : mdQ3go (.scan pw) (c :: rest) = true := hs
        by_cases hd : (!pw && isDigitC c) = true
        · rw [r4go_scan_cons, if_pos hd]
          rw [mdQ3_scan_cons, if_pos hd] at hq3
          rw [ihn rest hrest (.digits [c]) hq3]
          rfl
        · rw [r4go_scan_cons, if_neg hd]
          rw [mdQ3_scan_cons, if_neg hd] at hq3
          rw [ihn rest hrest (.scan (isWordC c)) hq3]
          rfl
      | digits rbuf =>
        have hq3 : mdQ3go .dig (c :: rest) = true := hs
        by_cases hdc : isDigitC c = true
        · rw [r4go_digits_cons, if_pos hdc]
          rw [mdQ3_dig_cons, if_pos hdc] at hq3
          rw [ihn rest hrest (.digits (c :: rbuf)) hq3]
          show (c :: rbuf).reverse ++ rest = rbuf.reverse ++ c :: rest
          rw [List.reverse_cons]
          simp
        · by_cases hdot : c = '.'
          · subst hdot
            rw [mdQ3_dig_cons, if_neg hdc, if_pos rfl, Bool.and_eq_true] at hq3
            obtain ⟨hds, hq3'⟩ := hq3
            cases rest with
            | nil =>
              rw [r4go_digits_one, if_neg hdc, if_pos rfl]
              rfl
            | cons d rest2 =>
              have hrest2 : rest2.length ≤ n := by
                simp only [List.length_cons] at hl
                omega
              rw [r4go_digits_cons2, if_neg hdc, if_pos rfl]
              by_cases hwd : isWsC d = true
              · rw [if_pos hwd]
                simp only [dotShape] at hds
                rw [if_pos hwd, Bool.and_eq_true] at hds
                have hdsp : d = ' ' := by simpa using hds.1
                subst hdsp
                have hq3'' : mdQ3go (.scan false) rest2 = true := by
                  rw [mdQ3_scan_cons, if_neg (by decide),
                    (by decide : isWordC ' ' = false)] at hq3'
                  exact hq3'
                rw [ihn rest2 hrest2 .wsSkip
                  ⟨hq3'', headNonWs_of_next (by simpa using hds.2)⟩]
                rfl
              · rw [if_neg hwd]
                by_cases hdd : isDigitC d = true
                · rw [if_pos hdd]
                  have hq3'' : mdQ3go .dig rest2 = true := by
                    rw [mdQ3_scan_cons, if_pos (by simp [hdd])] at hq3'
                    exact hq3'
                  rw [ihn rest2 hrest2 (.digits [d]) hq3'']
                  rfl
                · rw [if_neg hdd]
                  have hq3'' : mdQ3go (.scan (isWordC d)) rest2 = true := by
                    rw [mdQ3_scan_cons, if_neg (by simp [hdd])] at hq3'
                    exact hq3'
                  rw [ihn rest2 hrest2 (.scan (isWordC d)) hq3'']
                  rfl
          · rw [r4go_digits_cons, if_neg hdc, if_neg hdot]
            rw [mdQ3_dig_cons, if_neg hdc, if_neg hdot] at hq3
            rw [ihn rest hrest (.scan (isWordC c)) hq3]
            rfl
      | wsSkip =>
        obtain ⟨hq3, hhd⟩ := hs
        have hcnw : isWsC c = false := hhd c rfl
        rw [r4go_wsSkip_cons, if_neg (by simp [hcnw])]
        by_cases hdc : isDigitC c = true
        · rw [if_pos hdc]
          rw [mdQ3_scan_cons, if_pos (by simp [hdc])] at hq3
          rw [ihn rest hrest (.digits [c]) hq3]
          rfl
        · rw [if_neg hdc]
          rw [mdQ3_scan_cons, if_neg (by simp [hdc])] at hq3
          rw [ihn rest hrest (.scan (isWordC c)) hq3]
          rfl

theorem jsTrimL_append_space {v : List Char} (hh : HeadNonWs v) (hl : LastNonWs v) :
    jsTrimL (v ++ [' ']) = v := by
  cases v with
  | nil => rfl
  | cons a v' =>
    rw [jsTrimL, List.cons_append,
      List.dropWhile_cons_of_neg (by simp [hh a rfl]), ← List.cons_append]
    have h1 : ((a :: v') ++ [' ']).reverse = ' ' :: (a :: v').reverse := by simp
    rw [h1, List.dropWhile_cons_of_pos (by decide)]
    have h2 : (a :: v').reverse.dropWhile isWsC = (a :: v').reverse := by
      apply dropWhile_headNonWs
      intro y hy
      rw [List.head?_reverse] at hy
      exact hl y hy
    rw [h2, List.reverse_reverse]

/-- Pass 2: `convertToMarkdown` is the identity on its own output.  The
heading rule may append one space after a lonely trailing `#`; every other
rule is the identity, and the final trim removes that space again. -/
theorem convertToMarkdownL_fixed {v : List Char} (hn : NormalL v)
    (hq1 : mdQ1 true v = true) (hq2 : mdQ2 true v = true)
    (hq3 : mdQ3go (.scan false) v = true) :
    convertToMarkdownL v = v := by
  have h1 : mdR1 v = v ++ hashPad (lonelyHash true v) :=
    r1go_id v (.scan true) ⟨hn.chain, hq1, fun _ => hn.headOk⟩
  rw [convertToMarkdownL, h1]
  by_cases hlon : lonelyHash true v = true
  · rw [hlon]
    have hlast : v.getLast? = some '#' := lonely_getLast v true hlon
    have hvne : v ≠ [] := by
      intro hv
      rw [hv] at hlon
      simp [lonelyHash] at hlon
    have hchu : GoodChain (v ++ [' ']) := goodChain_append_space hn.chain hn.lastOk
    have hhu : HeadNonWs (v ++ [' ']) := by
      intro y hy
      rw [head?_append_of_ne_nil _ hvne] at hy
      exact hn.headOk y hy
    show jsTrimL (mdR4 (mdR3 (mdR2 (v ++ [' '])))) = v
    rw [mdR2_fix _ hchu]
    show jsTrimL (r4go (.scan false) (r3go (.scan true) (v ++ [' ']))) = v
    rw [r3go_id (v ++ [' ']).length (v ++ [' ']) le_rfl (.scan true)
      ⟨hchu, mdQ2_append_space v true hlast hq2, fun _ => hhu⟩]
    rw [r4go_id (v ++ [' ']).length (v ++ [' ']) le_rfl (.scan false)
      (mdQ3_append_space v (.scan false) hlast hq3)]
    show jsTrimL (v ++ [' ']) = v
    exact jsTrimL_append_space hn.headOk hn.lastOk
  · have hlonf : lonelyHash true v = false := by
      cases hv : lonelyHash true v
      · rfl
      · exact absurd hv hlon
    rw [hlonf]
    show jsTrimL (mdR4 (mdR3 (mdR2 (v ++ [])))) = v
    rw [List.append_nil, mdR2_fix _ hn.chain]
    show jsTrimL (r4go (.scan false) (r3go (.scan true) v)) = v
    rw [r3go_id v.length v le_rfl (.scan true) ⟨hn.chain, hq2, fun _ => hn.headOk⟩]
    rw [r4go_id v.length v le_rfl (.scan false) hq3]
    show jsTrimL v = v
    exact jsTrimL_fix v hn.headOk hn.lastOk

/-- C6 (amended): for every output format other than `html`,
`localProcessing` is idempotent.  The `markdown` conversion maps normal
strings to normal strings satisfying the three rule invariants, on which
each rule is the identity up to the trailing-space correction; all other
non-html formats apply only the normalization pipeline, which is
idempotent.  (For `html` the claim fails: see `C6_html_not_idempotent`.) -/
theorem C6_nonhtml_idempotent (text format : String) (hf : format ≠ "html") :
    localProcessing (localProcessing text format) format =
      localProcessing text format := by
  by_cases hmd : format = "markdown"
  · subst hmd
    refine congrArg String.mk ?_
    show localProcessingL (localProcessing text "markdown").data "markdown" =
      localProcessingL text.data "markdown"
    have hstepm : ∀ L : List Char, localProcessingL L "markdown" =
        convertToMarkdownL (normalizeL L) := by
      intro L
      show (if ("markdown" : String) = "markdown" then convertToMarkdownL (normalizeL L)
        else if ("markdown" : String) = "html" then convertToHTMLL (normalizeL L)
        else normalizeL L) = convertToMarkdownL (normalizeL L)
      rw [if_pos rfl]
    have hdata : (localProcessing text "markdown").data =
        convertToMarkdownL (normalizeL text.data) := hstepm text.data
    rw [hdata, hstepm, hstepm]
    obtain ⟨hn, hq1, hq2, hq3⟩ := convertToMarkdownL_out _ (normalizeL_normal text.data)
    rw [normalizeL_fixed _ hn, convertToMarkdownL_fixed hn hq1 hq2 hq3]
  · refine congrArg String.mk ?_
    show localProcessingL (localProcessing text format).data format =
      localProcessingL text.data format
    have hstep : ∀ L : List Char, localProcessingL L format = normalizeL L := by
      intro L
      show (if format = "markdown" then convertToMarkdownL (normalizeL L)
        else if format = "html" then convertToHTMLL (normalizeL L)
        else normalizeL L) = normalizeL L
      rw [if_neg hmd, if_neg hf]
    have hdata : (localProcessing text format).data =
        localProcessingL text.data format := rfl
    rw [hdata, hstep, hstep]
    exact normalizeL_idem text.data

theorem C6_nonhtml_idempotent_witness :
    ("markdown" : String) ≠ "html" ∧
      localProcessing (localProcessing "1. a\n# b" "markdown") "markdown" =
        localProcessing "1. a\n# b" "markdown" :=
  ⟨by decide, C6_nonhtml_idempotent "1. a\n# b" "markdown" (by decide)⟩

theorem C10_image_text_trimmed_witness :
    processImage ⟨.ok ()⟩ (.ok "  scanned text\n") = .ok (jsTrim "  scanned text\n") ∧
    (∀ c, (jsTrim "  scanned text\n").data.head? = some c → isWsC c = false) ∧
    (∀ c, (jsTrim "  scanned text\n").data.getLast? = some c → isWsC c = false) :=
  C10_image_text_trimmed ⟨.ok ()⟩ "  scanned text\n" rfl
    ⟨'s', by decide, by decide⟩

end Formetrix
